import Mathlib

/-!
Verification of the bittorrent client bencode codec, torrent info model and
magnet parsing, as a shallow embedding of the Rust sources in
src/decode.rs, src/encode.rs, src/utils.rs, src/torrent.rs, src/magnet.rs
and src/http/magnet.rs.

Modelling conventions:
* Byte strings are `List Nat` with entries below 256.
* Rust `String` values are modelled as their list of Unicode code points
  (`List Nat`); the UTF-8 serialisation (`String::as_bytes`, `str::len`)
  is modelled by `utf8Encode`.
* `isize` is modelled by `Int`; the wrapping cast `i as usize` is modelled
  by `(i % 2 ^ 64).toNat`, which agrees with the Rust cast on all inputs.
* Fallible code returns `Except`.  Rust panics (`panic!`, `.unwrap()`,
  arithmetic underflow in debug builds) are modelled by a distinguished
  error constructor `DErr.panic`; returned `anyhow` errors keep their root
  cause (`DErr.bt` for a `BtError` root, `DErr.msg` for errors created from
  an `Option` by `.context`/`.with_context`).
* The recursive decoder takes a fuel parameter (`DErr.fuel` is the
  out-of-fuel artifact, never produced when fuel exceeds the recursion
  depth of the run).
-/

/-- Bytes of an ASCII string literal (code points; used only for ASCII). -/
def strBytes (s : String) : List Nat := s.data.map Char.toNat

/-- utils.rs `u8_is_digit`: `n >= b'0' && n <= b'9'`. -/
def u8_is_digit (n : Nat) : Bool := 48 ≤ n && n ≤ 57

/-- Decimal digit extraction loop with an explicit recursion bound; any
bound of at least `n` gives the digits of `n` least significant first. -/
def digitsGo : Nat → Nat → List Nat
  | 0, n => [n]
  | fuel + 1, n => if n < 10 then [n] else (n % 10) :: digitsGo fuel (n / 10)

/-- Decimal digits of `n`, least significant first (each in `0..9`). -/
def decimalDigitsRev (n : Nat) : List Nat := digitsGo n n

/-- Canonical decimal rendering of a natural number as ASCII bytes.
This is both the spec-side `decimal(n)` and the model of Rust
`usize::to_string` (`EncodeContext::push_usize` appends exactly these
bytes: the source pushes the characters of `v.to_string()` in order). -/
def natDecimal (n : Nat) : List Nat := (decimalDigitsRev n).reverse.map (· + 48)

/-- Spec-side `decimal(n)` for integers: minus sign followed by magnitude. -/
def intDecimal (n : Int) : List Nat :=
  if n < 0 then 45 :: natDecimal n.natAbs else natDecimal n.toNat

/-- utils.rs `char_slice_to_usize` loop: iterate the reversed slice with
ascending powers of ten, failing on a non-digit. -/
def csuGo : Nat → Nat → List Nat → Option Nat
  | ret, _, [] => some ret
  | ret, idx, d :: rest =>
    if u8_is_digit d then csuGo (ret + (d - 48) * 10 ^ idx) (idx + 1) rest
    else none

/-- utils.rs `char_slice_to_usize`. -/
def char_slice_to_usize (data : List Nat) : Option Nat := csuGo 0 0 data.reverse

/-- utils.rs `char_slice_to_isize` loop: iterate the digit slice most
significant first; `p` is decremented before each use. -/
def csiGo : Int → Nat → List Nat → Option Int
  | ret, _, [] => some ret
  | ret, p, d :: rest =>
    if u8_is_digit d then
      csiGo (ret + ((d : Int) - 48) * 10 ^ (p - 1)) (p - 1) rest
    else none

/-- utils.rs `char_slice_to_isize`: optional leading minus sign, then the
positional loop, then negation. -/
def char_slice_to_isize (data : List Nat) : Option Int :=
  let neg := data.head? = some 45
  let it := if neg then data.drop 1 else data
  let p := if neg then data.length - 1 else data.length
  (csiGo 0 p it).map (fun ret => if neg then ret * (-1) else ret)

/-- Value of an ASCII hex digit (both cases), as accepted by the `hex`
crate. -/
def hexVal (c : Nat) : Option Nat :=
  if 48 ≤ c ∧ c ≤ 57 then some (c - 48)
  else if 97 ≤ c ∧ c ≤ 102 then some (c - 87)
  else if 65 ≤ c ∧ c ≤ 70 then some (c - 55)
  else none

/-- Lowercase hex digit character for a value below 16. -/
def hexDigitChar (n : Nat) : Nat := if n < 10 then 48 + n else 87 + n

/-- `hex::encode`: two lowercase hex characters per byte, high nibble
first. -/
def hexEncode : List Nat → List Nat
  | [] => []
  | b :: rest => hexDigitChar (b / 16) :: hexDigitChar (b % 16) :: hexEncode rest

/-- utils.rs `encode_bytes_to_string` (`hex::encode`). -/
def encode_bytes_to_string (d : List Nat) : List Nat := hexEncode d

/-- `hex::decode`: consume hex digit pairs, high nibble first; `none` on an
odd length or an invalid digit (the `hex` crate errors in those cases). -/
def hexDecode : List Nat → Option (List Nat)
  | [] => some []
  | [_] => none
  | a :: b :: rest =>
    match hexVal a, hexVal b, hexDecode rest with
    | some va, some vb, some tail => some ((va * 16 + vb) :: tail)
    | _, _, _ => none

/-- UTF-8 bytes of one code point (model of Rust `char` encoding). -/
def utf8Char (c : Nat) : List Nat :=
  if c < 0x80 then [c]
  else if c < 0x800 then [0xC0 + c / 64, 0x80 + c % 64]
  else if c < 0x10000 then [0xE0 + c / 4096, 0x80 + c / 64 % 64, 0x80 + c % 64]
  else [0xF0 + c / 262144, 0x80 + c / 4096 % 64, 0x80 + c / 64 % 64, 0x80 + c % 64]

/-- UTF-8 serialisation of a Rust `String` modelled as code points
(`String::as_bytes`; `str::len` is the length of this list). -/
def utf8Encode (s : List Nat) : List Nat := s.flatMap utf8Char

/-- Lossy UTF-8 decoding (model of `String::from_utf8_lossy`, used by the
url-encoded form parser): well-formed sequences decode exactly; malformed
bytes yield U+FFFD (replacement character counts may differ from Rust on
malformed input, which no claim depends on). -/
def utf8LossyGo : Nat → List Nat → List Nat
  | 0, _ => []
  | _, [] => []
  | fuel + 1, b :: rest =>
    if b < 0x80 then b :: utf8LossyGo fuel rest
    else if 0xC2 ≤ b ∧ b ≤ 0xDF then
      match rest with
      | c :: rest2 =>
        if 0x80 ≤ c ∧ c ≤ 0xBF then ((b - 0xC0) * 64 + (c - 0x80)) :: utf8LossyGo fuel rest2
        else 0xFFFD :: utf8LossyGo fuel (c :: rest2)
      | [] => [0xFFFD]
    else if 0xE0 ≤ b ∧ b ≤ 0xEF then
      match rest with
      | c :: d :: rest2 =>
        if (0x80 ≤ c ∧ c ≤ 0xBF) ∧ (0x80 ≤ d ∧ d ≤ 0xBF) ∧
            (b = 0xE0 → 0xA0 ≤ c) ∧ (b = 0xED → c ≤ 0x9F) then
          ((b - 0xE0) * 4096 + (c - 0x80) * 64 + (d - 0x80)) :: utf8LossyGo fuel rest2
        else 0xFFFD :: utf8LossyGo fuel (c :: d :: rest2)
      | _ => [0xFFFD]
    else if 0xF0 ≤ b ∧ b ≤ 0xF4 then
      match rest with
      | c :: d :: e :: rest2 =>
        if (0x80 ≤ c ∧ c ≤ 0xBF) ∧ (0x80 ≤ d ∧ d ≤ 0xBF) ∧ (0x80 ≤ e ∧ e ≤ 0xBF) ∧
            (b = 0xF0 → 0x90 ≤ c) ∧ (b = 0xF4 → c ≤ 0x8F) then
          ((b - 0xF0) * 262144 + (c - 0x80) * 4096 + (d - 0x80) * 64 + (e - 0x80)) ::
            utf8LossyGo fuel rest2
        else 0xFFFD :: utf8LossyGo fuel (c :: d :: e :: rest2)
      | _ => [0xFFFD]
    else 0xFFFD :: utf8LossyGo fuel rest

/-- Lossy UTF-8 decoding of a byte list (entry point). -/
def utf8LossyDecode (l : List Nat) : List Nat := utf8LossyGo l.length l

/-- utils.rs `BtError` (the variants reachable from the decoder). -/
inductive BtError
  | ended
  | invalidString (pos : Nat)
  | invalidInterger (pos : Nat)
  | invalidList (pos : Nat)
  | invalidMap (pos : Nat)
  | invalidMapKey (pos : Nat)
  | charNotFound (pos : Nat) (ch : Nat)
  deriving DecidableEq, Repr

/-- Outcome classification for the decoder.  `bt` is a returned `anyhow`
error with a `BtError` root cause; `msg` is a returned `anyhow` error
created from an `Option` by `.context`/`.with_context` (the message is the
context text); `panic` models a Rust panic (`panic!`, `.unwrap()` on
`Err`/`None`, or arithmetic underflow); `fuel` is the out-of-fuel artifact
of the embedding, never produced when fuel exceeds the recursion depth. -/
inductive DErr
  | bt (e : BtError)
  | msg (s : String)
  | panic (s : String)
  | fuel
  deriving DecidableEq, Repr

abbrev DRes (α : Type) := Except DErr α

/-- decode.rs `DecodeContext::ended`: `pos > data.len() - 1`.  On empty
data the `usize` subtraction underflows, which is a panic in debug builds
(in release builds the wrap-around instead sends `peek` into an
out-of-bounds index, also a panic); we model the empty case as a panic. -/
def ctxEnded (data : List Nat) (pos : Nat) : DRes Bool :=
  if data.length = 0 then .error (.panic "attempt to subtract with overflow")
  else .ok (decide (pos > data.length - 1))

/-- decode.rs `DecodeContext::peek`. -/
def ctxPeek (data : List Nat) (pos : Nat) : DRes (Option Nat) :=
  match ctxEnded data pos with
  | .error e => .error e
  | .ok true => .ok none
  | .ok false => .ok (some (data.getD pos 0))

/-- decode.rs `DecodeContext::position`: bail `Ended` when past the end,
otherwise the position of `ch` relative to the cursor, `CharNotFound` if
absent. -/
def ctxPosition (data : List Nat) (pos : Nat) (ch : Nat) : DRes Nat :=
  match ctxEnded data pos with
  | .error e => .error e
  | .ok true => .error (.bt .ended)
  | .ok false =>
    match (data.drop pos).findIdx? (· = ch) with
    | some v => .ok v
    | none => .error (.bt (.charNotFound pos ch))

/-- decode.rs `DecodeContext::advance_many`: `none` when ended or when the
requested slice would run past the end, otherwise the slice and the new
cursor. -/
def ctxAdvanceMany (data : List Nat) (pos step : Nat) :
    DRes (Option (List Nat × Nat)) :=
  match ctxEnded data pos with
  | .error e => .error e
  | .ok ended =>
    if ended || pos + step > data.length then .ok none
    else .ok (some ((data.drop pos).take step, pos + step))

/-- decode.rs `decode_string`: length, colon, then the content bytes; each
byte becomes one character of the produced Rust `String` (`x as char`), so
the result is the list of the content bytes read as code points. -/
def decode_string (data : List Nat) (pos : Nat) : DRes (List Nat × Nat) :=
  match ctxPeek data pos with
  | .error e => .error e
  | .ok pk =>
    if (pk.map (fun x => u8_is_digit x)) ≠ some true then
      .error (.bt (.invalidString pos))
    else
      match ctxPosition data pos 58 with
      | .error e => .error e
      | .ok col_idx =>
        match ctxAdvanceMany data pos col_idx with
        | .error e => .error e
        | .ok none =>
          .error (.msg ("string length hint pos " ++ Nat.repr col_idx ++ " out of range"))
        | .ok (some (lenBytes, pos1)) =>
          match char_slice_to_usize lenBytes with
          | none => .error (.msg "invalid string length")
          | some string_len =>
            match ctxAdvanceMany data (pos1 + 1) string_len with
            | .error e => .error e
            | .ok none =>
              .error (.msg ("string idx " ++ Nat.repr string_len ++ " out of range"))
            | .ok (some (s, pos2)) => .ok (s, pos2)

/-- decode.rs `decode_bytes`: identical to `decode_string` except the
content is kept as raw bytes (`Vec<u8>`); in this model both return the
same list, the type-level difference shows up only at UTF-8
serialisation. -/
def decode_bytes (data : List Nat) (pos : Nat) : DRes (List Nat × Nat) :=
  match ctxPeek data pos with
  | .error e => .error e
  | .ok pk =>
    if (pk.map (fun x => u8_is_digit x)) ≠ some true then
      .error (.bt (.invalidString pos))
    else
      match ctxPosition data pos 58 with
      | .error e => .error e
      | .ok col_idx =>
        match ctxAdvanceMany data pos col_idx with
        | .error e => .error e
        | .ok none =>
          .error (.msg ("string length hint pos " ++ Nat.repr col_idx ++ " out of range"))
        | .ok (some (lenBytes, pos1)) =>
          match char_slice_to_usize lenBytes with
          | none => .error (.msg "invalid string length")
          | some string_len =>
            match ctxAdvanceMany data (pos1 + 1) string_len with
            | .error e => .error e
            | .ok none =>
              .error (.msg ("string idx " ++ Nat.repr string_len ++ " out of range"))
            | .ok (some (s, pos2)) => .ok (s, pos2)

/-- decode.rs `decode_integer`: leading `i` check, `position(b'e')`
followed by `.unwrap()` (a panic when the search fails), then the digit
slice via `char_slice_to_isize`, then the final advance past `e`. -/
def decode_integer (data : List Nat) (pos : Nat) : DRes (Int × Nat) :=
  match ctxPeek data pos with
  | .error e => .error e
  | .ok pk =>
    if pk ≠ some 105 then .error (.bt (.invalidInterger pos))
    else
      match ctxPosition data pos 101 with
      | .error (.panic s) => .error (.panic s)
      | .error _ => .error (.panic "called unwrap on an Err value")
      | .ok interger_end_pos =>
        match ctxAdvanceMany data (pos + 1) (interger_end_pos - 1) with
        | .error e => .error e
        | .ok none => .error (.msg "out of range")
        | .ok (some (xs, pos1)) =>
          match char_slice_to_isize xs with
          | none => .error (.msg "invalid integer number")
          | some number => .ok (number, pos1 + 1)

/-- Model of `serde_json::Value` (numbers restricted to the integers the
program produces, as `serde_json::Number` stores `i64`/`u64`). -/
inductive JSValue
  | null
  | bool (b : Bool)
  | num (n : Int)
  | str (s : List Nat)
  | arr (vs : List JSValue)
  | obj (m : List (List Nat × JSValue))
  deriving Repr

/-- Strict lexicographic order on byte strings (Rust `String` ordering,
which governs `BTreeMap` key order in `serde_json::Map`). -/
def bytesLt : List Nat → List Nat → Bool
  | [], [] => false
  | [], _ :: _ => true
  | _ :: _, [] => false
  | a :: as_, b :: bs => if a < b then true else if b < a then false else bytesLt as_ bs

/-- `BTreeMap::insert` on the sorted association list representing a
`serde_json::Map` (replaces an existing binding of the same key). -/
def mapInsert (m : List (List Nat × JSValue)) (k : List Nat) (v : JSValue) :
    List (List Nat × JSValue) :=
  match m with
  | [] => [(k, v)]
  | (k1, v1) :: rest =>
    if bytesLt k k1 then (k, v) :: (k1, v1) :: rest
    else if k = k1 then (k, v) :: rest
    else (k1, v1) :: mapInsert rest k v

/-- `BTreeMap::get` on the association list. -/
def mapLookup (m : List (List Nat × JSValue)) (k : List Nat) : Option JSValue :=
  match m with
  | [] => none
  | (k1, v1) :: rest => if k1 = k then some v1 else mapLookup rest k

mutual

/-- decode.rs `decode_bencoded_value`: dispatch on the byte at the cursor;
a byte other than a digit, `i`, `l`, `d` hits `panic!("unsupported
format")`; a cursor at the end of (nonempty) data is
`.context("reached the end of data")` on `peek`'s `None`. -/
def decode_bencoded_value : Nat → List Nat → Nat → DRes (JSValue × Nat)
  | 0, _, _ => .error .fuel
  | fuel + 1, data, pos =>
    match ctxPeek data pos with
    | .error e => .error e
    | .ok none => .error (.msg "reached the end of data")
    | .ok (some flag) =>
      if u8_is_digit flag then
        match decode_string data pos with
        | .error e => .error e
        | .ok (s, pos1) => .ok (.str s, pos1)
      else if flag = 105 then
        match decode_integer data pos with
        | .error e => .error e
        | .ok (n, pos1) => .ok (.num n, pos1)
      else if flag = 108 then decode_list fuel data pos
      else if flag = 100 then decode_dictionary fuel data pos
      else .error (.panic "unsupported format")
  termination_by structural fuel _ _ => fuel

/-- decode.rs `decode_list`: `l`, elements until `e` or end of input, then
one `advance` past the terminator. -/
def decode_list : Nat → List Nat → Nat → DRes (JSValue × Nat)
  | 0, _, _ => .error .fuel
  | fuel + 1, data, pos =>
    match ctxPeek data pos with
    | .error e => .error e
    | .ok pk =>
      if pk ≠ some 108 then .error (.bt (.invalidList pos))
      else
        match decode_listLoop fuel data (pos + 1) [] with
        | .error e => .error e
        | .ok (values, pos1) => .ok (.arr values, pos1)
  termination_by structural fuel _ _ => fuel

/-- The `loop` of decode.rs `decode_list`: break on `e` or on end of
input, otherwise decode one element and continue. -/
def decode_listLoop : Nat → List Nat → Nat → List JSValue → DRes (List JSValue × Nat)
  | 0, _, _, _ => .error .fuel
  | fuel + 1, data, pos, values =>
    match ctxPeek data pos with
    | .error e => .error e
    | .ok pk =>
      if pk = some 101 then .ok (values, pos + 1)
      else if pk = none then .ok (values, pos + 1)
      else
        match decode_bencoded_value fuel data pos with
        | .error e => .error e
        | .ok (v, pos1) => decode_listLoop fuel data pos1 (values ++ [v])
  termination_by structural fuel _ _ _ => fuel

/-- decode.rs `decode_dictionary`: `d`, then the key/value state machine
until `e` or end of input.  Note the source does NOT advance past the
terminating `e` of a dictionary. -/
def decode_dictionary : Nat → List Nat → Nat → DRes (JSValue × Nat)
  | 0, _, _ => .error .fuel
  | fuel + 1, data, pos =>
    match ctxPeek data pos with
    | .error e => .error e
    | .ok pk =>
      if pk ≠ some 100 then .error (.bt (.invalidMap pos))
      else
        match decode_dictLoop fuel data (pos + 1) none [] with
        | .error e => .error e
        | .ok (values, pos1) => .ok (.obj values, pos1)
  termination_by structural fuel _ _ => fuel

/-- The `loop` of decode.rs `decode_dictionary`: break on `e` or end of
input; in state `None` decode a value that must be a string key; in state
`Key k` decode the value (`decode_bytes` re-encoded to a hex string when
the key is `pieces`) and insert. -/
def decode_dictLoop : Nat → List Nat → Nat → Option (List Nat) →
    List (List Nat × JSValue) → DRes (List (List Nat × JSValue) × Nat)
  | 0, _, _, _, _ => .error .fuel
  | fuel + 1, data, pos, state, values =>
    match ctxPeek data pos with
    | .error e => .error e
    | .ok pk =>
      if pk = some 101 then .ok (values, pos)
      else if pk = none then .ok (values, pos)
      else
        match state with
        | none =>
          match decode_bencoded_value fuel data pos with
          | .error e => .error e
          | .ok (v, pos1) =>
            match v with
            | .str s => decode_dictLoop fuel data pos1 (some s) values
            | _ => .error (.bt (.invalidMapKey pos1))
        | some k =>
          if k = strBytes "pieces" then
            match decode_bytes data pos with
            | .error e => .error e
            | .ok (value, pos1) =>
              decode_dictLoop fuel data pos1 none
                (mapInsert values k (.str (encode_bytes_to_string value)))
          else
            match decode_bencoded_value fuel data pos with
            | .error e => .error e
            | .ok (v, pos1) => decode_dictLoop fuel data pos1 none (mapInsert values k v)
  termination_by structural fuel _ _ _ _ => fuel


end

/-- encode.rs `encode_string`: `push_usize(s.len())`, a colon and
`s.as_bytes()` — both length and content are the UTF-8 serialisation of
the string. -/
def encode_string (s : List Nat) : List Nat :=
  natDecimal (utf8Encode s).length ++ [58] ++ utf8Encode s

/-- encode.rs `encode_integer`: `i`, then for negative values a minus sign
followed by `push_usize(i as usize)` — the WRAPPING cast, i.e. the two's
complement bit pattern `2^64 + i` read as unsigned — and for non-negative
values `push_usize(i.abs() as usize)`; then `e`. -/
def encode_integer (i : Int) : List Nat :=
  [105] ++
    (if i < 0 then 45 :: natDecimal (i % 2 ^ 64).toNat
     else natDecimal i.toNat) ++ [101]

/-- `v.as_str().unwrap()`: the string content of a JSON value, panicking
(modelled as `.error`) when the value is not a string. -/
def unwrapStr (v : JSValue) : Except String (List Nat) :=
  match v with
  | .str s => .ok s
  | _ => .error "called unwrap on a None value"

/-- utils.rs `decode_bytes_from_string`: `hex::decode(s).unwrap()`,
panicking (modelled as `.error`) on invalid hex. -/
def decode_bytes_from_string (s : List Nat) : Except String (List Nat) :=
  match hexDecode s with
  | some bs => .ok bs
  | none => .error "called unwrap on an Err value"

mutual

/-- encode.rs `encode_json_value`: numbers via `as_i64().unwrap()` (a
panic outside the `i64` range) and `encode_integer`; strings directly;
arrays as `l`, the encoded elements, `e` (the body of `encode_list`);
objects as `d`, the encoded entries, `e` (the body of
`encode_dictionary`); any other value hits `panic!("unsupported data")`.
Panics are the `.error` case. -/
def encode_json_value : JSValue → Except String (List Nat)
  | .num n =>
    if -(2 ^ 63) ≤ n ∧ n < 2 ^ 63 then .ok (encode_integer n)
    else .error "called unwrap on a None value"
  | .str s => .ok (encode_string s)
  | .arr values =>
    match encode_listElems values with
    | .error e => .error e
    | .ok body => .ok (108 :: body ++ [101])
  | .obj m =>
    match encode_dictEntries m with
    | .error e => .error e
    | .ok body => .ok (100 :: body ++ [101])
  | .null => .error "unsupported data"
  | .bool _ => .error "unsupported data"

/-- The `for` loop of encode.rs `encode_list`. -/
def encode_listElems : List JSValue → Except String (List Nat)
  | [] => .ok []
  | v :: rest =>
    match encode_json_value v with
    | .error e => .error e
    | .ok b =>
      match encode_listElems rest with
      | .error e => .error e
      | .ok r => .ok (b ++ r)

/-- The `for` loop of encode.rs `encode_dictionary`: each key as a bencode
string, then for the keys `pieces` and `peers` the value is
`hex::decode(v.as_str().unwrap()).unwrap()` (panicking when the value is
not a string or not valid hex) emitted as a length-prefixed byte string,
otherwise the value is encoded recursively. -/
def encode_dictEntries : List (List Nat × JSValue) → Except String (List Nat)
  | [] => .ok []
  | (k, v) :: rest =>
    match
      (if k = strBytes "pieces" ∨ k = strBytes "peers" then
        match unwrapStr v with
        | .error e => .error e
        | .ok s =>
          match decode_bytes_from_string s with
          | .error e => .error e
          | .ok bs => .ok (natDecimal bs.length ++ [58] ++ bs)
      else encode_json_value v) with
    | .error e => .error e
    | .ok kv =>
      match encode_dictEntries rest with
      | .error e => .error e
      | .ok r => .ok (encode_string k ++ kv ++ r)

end

/-- encode.rs `encode_list`: `l`, the encoded elements in order, `e`
(definitionally the array case of `encode_json_value`). -/
def encode_list (v : List JSValue) : Except String (List Nat) :=
  match encode_listElems v with
  | .error e => .error e
  | .ok body => .ok (108 :: body ++ [101])

/-- encode.rs `encode_dictionary`: `d`, the entries in map (key) order,
`e` (definitionally the object case of `encode_json_value`). -/
def encode_dictionary (v : List (List Nat × JSValue)) : Except String (List Nat) :=
  match encode_dictEntries v with
  | .error e => .error e
  | .ok body => .ok (100 :: body ++ [101])

/-- Big-endian byte rendering of `v` in `n` bytes. -/
def beBytes : Nat → Nat → List Nat
  | 0, _ => []
  | n + 1, v => beBytes n (v / 256) ++ [v % 256]

/-- 32-bit left rotation. -/
def rotl32 (s x : Nat) : Nat := ((x <<< s) ||| (x >>> (32 - s))) % 2 ^ 32

/-- One 32-bit big-endian word of a SHA-1 block. -/
def sha1Word (block : List Nat) (i : Nat) : Nat :=
  block.getD (4 * i) 0 * 2 ^ 24 + block.getD (4 * i + 1) 0 * 2 ^ 16 +
    block.getD (4 * i + 2) 0 * 2 ^ 8 + block.getD (4 * i + 3) 0

/-- SHA-1 message-schedule extension from 16 to 80 words. -/
def sha1Extend : Nat → List Nat → List Nat
  | 0, ws => ws
  | k + 1, ws =>
    let n := ws.length
    sha1Extend k
      (ws ++ [rotl32 1 (ws.getD (n - 3) 0 ^^^ ws.getD (n - 8) 0 ^^^
        ws.getD (n - 14) 0 ^^^ ws.getD (n - 16) 0)])

/-- SHA-1 round function selection. -/
def sha1F (i b c d : Nat) : Nat :=
  if i < 20 then (b &&& c) ||| ((b ^^^ (2 ^ 32 - 1)) &&& d)
  else if i < 40 then b ^^^ c ^^^ d
  else if i < 60 then (b &&& c) ||| (b &&& d) ||| (c &&& d)
  else b ^^^ c ^^^ d

/-- SHA-1 round constants. -/
def sha1K (i : Nat) : Nat :=
  if i < 20 then 0x5A827999
  else if i < 40 then 0x6ED9EBA1
  else if i < 60 then 0x8F1BBCDC
  else 0xCA62C1D6

/-- One SHA-1 round on the five-word state. -/
def sha1Round (ws : List Nat) (st : Nat × Nat × Nat × Nat × Nat) (i : Nat) :
    Nat × Nat × Nat × Nat × Nat :=
  let (a, b, c, d, e) := st
  let temp := (rotl32 5 a + sha1F i b c d + e + sha1K i + ws.getD i 0) % 2 ^ 32
  (temp, a, rotl32 30 b, c, d)

/-- SHA-1 compression of one 64-byte block. -/
def sha1Compress (h : Nat × Nat × Nat × Nat × Nat) (block : List Nat) :
    Nat × Nat × Nat × Nat × Nat :=
  let ws := sha1Extend 64 ((List.range 16).map (sha1Word block))
  let (a, b, c, d, e) := (List.range 80).foldl (sha1Round ws) h
  let (h0, h1, h2, h3, h4) := h
  ((h0 + a) % 2 ^ 32, (h1 + b) % 2 ^ 32, (h2 + c) % 2 ^ 32,
    (h3 + d) % 2 ^ 32, (h4 + e) % 2 ^ 32)

/-- Fold SHA-1 compression over the padded message (the recursion bound is
the byte count, well above the block count). -/
def sha1Blocks : Nat → (Nat × Nat × Nat × Nat × Nat) → List Nat →
    Nat × Nat × Nat × Nat × Nat
  | 0, h, _ => h
  | _, h, [] => h
  | fuel + 1, h, b :: rest =>
    sha1Blocks fuel (sha1Compress h ((b :: rest).take 64)) ((b :: rest).drop 64)

/-- SHA-1 padding: `0x80`, zeros to 56 mod 64, then the bit length in 8
big-endian bytes. -/
def sha1Pad (msg : List Nat) : List Nat :=
  msg ++ [0x80] ++ List.replicate ((64 - (msg.length + 9) % 64) % 64) 0 ++
    beBytes 8 (8 * msg.length)

/-- SHA-1 (RFC 3174) of a byte sequence, as computed by the `sha1` crate
used in torrent.rs. -/
def sha1 (msg : List Nat) : List Nat :=
  let (h0, h1, h2, h3, h4) :=
    sha1Blocks (sha1Pad msg).length
      (0x67452301, 0xEFCDAB89, 0x98BADCFE, 0x10325476, 0xC3D2E1F0) (sha1Pad msg)
  beBytes 4 h0 ++ beBytes 4 h1 ++ beBytes 4 h2 ++ beBytes 4 h3 ++ beBytes 4 h4

/-- torrent.rs `TorrentInfo` (strings as code points; `piece_hashes` is
skipped by serde and filled in by `Torrent::try_from`). -/
structure TorrentInfo where
  length : Nat
  name : List Nat
  piece_length : Nat
  pieces : List Nat
  piece_hashes : List (List Nat)
  deriving Repr

/-- torrent.rs `Torrent` (`tracker_url` is serde-renamed `announce`;
`info_hash` is skipped by serde, default empty, and set by `try_from`). -/
structure Torrent where
  tracker_url : List Nat
  info : TorrentInfo
  info_hash : List Nat
  deriving Repr

/-- `serde_json::Value::get` (object member lookup). -/
def jsGet (v : JSValue) (k : List Nat) : Option JSValue :=
  match v with
  | .obj m => mapLookup m k
  | _ => none

/-- `serde_json::Value::as_object`. -/
def asObject : JSValue → Option (List (List Nat × JSValue))
  | .obj m => some m
  | _ => none

/-- `serde_json::Value::as_str`. -/
def asStr : JSValue → Option (List Nat)
  | .str s => some s
  | _ => none

/-- A JSON number deserialized as `usize`: must be an integer in the
unsigned 64-bit range. -/
def asUsize : JSValue → Option Nat
  | .num n => if 0 ≤ n ∧ n < 2 ^ 64 then some n.toNat else none
  | _ => none

/-- `serde_json::from_value` for `TorrentInfo`: required fields `length`,
`name`, `piece length`, `pieces`; unknown fields ignored; skipped fields
take their defaults. -/
def torrentInfoFromValue (v : JSValue) : Except String TorrentInfo :=
  match v with
  | .obj m =>
    match mapLookup m (strBytes "length") |>.bind asUsize,
        mapLookup m (strBytes "name") |>.bind asStr,
        mapLookup m (strBytes "piece length") |>.bind asUsize,
        mapLookup m (strBytes "pieces") |>.bind asStr with
    | some length, some name, some piece_length, some pieces =>
      .ok ⟨length, name, piece_length, pieces, []⟩
    | _, _, _, _ => .error "invalid torrent info"
  | _ => .error "invalid torrent info"

/-- `serde_json::from_value` for `Torrent`. -/
def torrentFromValue (v : JSValue) : Except String Torrent :=
  match v with
  | .obj m =>
    match mapLookup m (strBytes "announce") |>.bind asStr with
    | some announce =>
      match mapLookup m (strBytes "info") with
      | some infoV =>
        match torrentInfoFromValue infoV with
        | .ok info => .ok ⟨announce, info, []⟩
        | .error e => .error e
      | none => .error "missing info"
    | none => .error "missing announce"
  | _ => .error "invalid torrent"

/-- `chunks_exact(40)` loop with an explicit recursion bound. -/
def chunksGo : Nat → List Nat → List (List Nat)
  | 0, _ => []
  | fuel + 1, l =>
    if l.length < 40 then [] else l.take 40 :: chunksGo fuel (l.drop 40)

/-- `chunks_exact(40)`: the complete 40-element chunks, remainder
dropped. -/
def chunksExact40 (l : List Nat) : List (List Nat) := chunksGo l.length l

/-- torrent.rs `impl TryFrom<serde_json::Value> for Torrent`: look up the
`info` object, re-encode it with `encode_dictionary`, SHA-1 the bytes and
hex-encode the digest into `info_hash`; then deserialize the whole value
and fill in `piece_hashes` from the 40-byte chunks of the UTF-8 bytes of
`pieces` (an encoder panic propagates; the unused first `piece_hashes`
loop of the source builds a dead local and is omitted). -/
def Torrent.tryFrom (value : JSValue) : DRes Torrent :=
  match (jsGet value (strBytes "info")).bind asObject with
  | none => .error (.msg "info map not found")
  | some info_map =>
    match encode_dictionary info_map with
    | .error e => .error (.panic e)
    | .ok bs =>
      let info_hash := hexEncode (sha1 bs)
      match torrentFromValue value with
      | .error e => .error (.msg e)
      | .ok torrent =>
        .ok { torrent with
                info_hash := info_hash,
                info := { torrent.info with
                            piece_hashes := chunksExact40 (utf8Encode torrent.info.pieces) } }

/-- magnet.rs `Magnet` (info hash as 20 raw bytes; strings as code
points). -/
structure Magnet where
  info_hash : List Nat
  download_name : Option (List Nat)
  tracker_url : Option (List Nat)
  deriving Repr

/-- `form_urlencoded` byte decoding: `+` becomes a space, then percent
escapes with two hex digits become the escaped byte (an invalid escape
leaves the `%` literal and continues with the following bytes). -/
def percentDecode : List Nat → List Nat
  | [] => []
  | 37 :: a :: b :: rest =>
    match hexVal a, hexVal b with
    | some x, some y => (16 * x + y) :: percentDecode rest
    | _, _ => 37 :: percentDecode (a :: b :: rest)
  | c :: rest => c :: percentDecode rest

/-- Value decoding of one form-urlencoded token: plus-to-space, percent
decoding, then lossy UTF-8 into a Rust string. -/
def urlTokenDecode (bs : List Nat) : List Nat :=
  utf8LossyDecode (percentDecode (bs.map (fun b => if b = 43 then 32 else b)))

/-- Split on `&` (byte 38). -/
def ampSplit : List Nat → List (List Nat)
  | [] => [[]]
  | 38 :: rest => [] :: ampSplit rest
  | c :: rest =>
    match ampSplit rest with
    | s :: ss => (c :: s) :: ss
    | [] => [[c]]

/-- Split one `key=value` token at the first `=` (byte 61); a missing `=`
yields an empty value. -/
def eqSplit (seg : List Nat) : List Nat × List Nat :=
  match seg with
  | [] => ([], [])
  | 61 :: rest => ([], rest)
  | c :: rest =>
    let (n, v) := eqSplit rest
    (c :: n, v)

/-- `serde_urlencoded::from_str::<Vec<(String, String)>>` /
`form_urlencoded::parse`: split on `&`, skip empty sequences, split each
at the first `=`, decode both sides. -/
def urlencodedParse (input : List Nat) : List (List Nat × List Nat) :=
  ((ampSplit input).filter (fun s => ¬ s.isEmpty)).map
    (fun seg =>
      let (n, v) := eqSplit seg
      (urlTokenDecode n, urlTokenDecode v))

/-- magnet.rs `Magnet::new`: check the `magnet:?xt=urn:btih:` prefix and a
minimum length of 60, split off 40 hex characters and `hex::decode` them
into the 20-byte info hash, then fold the remaining url-encoded pairs,
`dn` into `download_name` and `tr` into `tracker_url`, ignoring other
keys.  The input string is modelled at the byte level. -/
def Magnet.new (magnet_str : List Nat) : Except String Magnet :=
  if ¬ ((strBytes "magnet:?xt=urn:btih:").isPrefixOf magnet_str) ∨
      magnet_str.length < 20 + 40 then
    .error "invalid prefix or too short"
  else
    let rest0 := magnet_str.drop 20
    let hash_str := rest0.take 40
    let rest := rest0.drop 40
    match hexDecode hash_str with
    | none => .error "invalid info hash hex code"
    | some info_hash =>
      if rest.isEmpty then .ok ⟨info_hash, none, none⟩
      else
        let segments := urlencodedParse rest
        let dntr := segments.foldl
          (fun (acc : Option (List Nat) × Option (List Nat)) nv =>
            if nv.1 = strBytes "dn" then (some nv.2, acc.2)
            else if nv.1 = strBytes "tr" then (acc.1, some nv.2)
            else acc) (none, none)
        .ok ⟨info_hash, dntr.1, dntr.2⟩

/-- Modelled from the spec: the fixed 20-byte peer id constant `PEER_ID`
(defined in an http module source file that is not under src/; the spec
says a fixed 20-byte client identifier is acceptable). -/
def PEER_ID : List Nat := strBytes "00112233445566778899"

/-- Modelled from the spec: the fixed client port constant `PORT` (defined
in an http module source file that is not under src/; the spec suggests a
fixed constant such as 6881). -/
def PORT : List Nat := strBytes "6881"

/-- http/magnet.rs `handshake`: the query pairs appended to the tracker
url, in source order.  The `encoding_override` replaces the
`info_hash` placeholder value with the raw 20 info-hash bytes, so that
pair carries `magnet.info_hash` itself; every other value is a literal —
in particular `left` is always the literal string `1`. -/
def magnetTrackerQueryPairs (magnet : Magnet) : List (List Nat × List Nat) :=
  [(strBytes "info_hash", magnet.info_hash),
   (strBytes "uploaded", strBytes "0"),
   (strBytes "downloaded", strBytes "0"),
   (strBytes "left", strBytes "1"),
   (strBytes "compact", strBytes "1"),
   (strBytes "peer_id", PEER_ID),
   (strBytes "port", PORT)]

/-- Value of an ASCII digit list read least-significant-first. -/
def lsbVal : List Nat → Nat
  | [] => 0
  | d :: rest => (d - 48) + 10 * lsbVal rest

theorem digitsGo_lt : ∀ fuel n, n ≤ fuel → ∀ d ∈ digitsGo fuel n, d < 10 := by
  intro fuel
  induction fuel with
  | zero =>
    intro n hn d hd
    simp [digitsGo] at hd
    omega
  | succ f ih =>
    intro n hn d hd
    by_cases h10 : n < 10
    · simp [digitsGo, h10] at hd
      omega
    · simp only [digitsGo, if_neg h10] at hd
      rcases List.mem_cons.mp hd with rfl | hd2
      · omega
      · exact ih (n / 10) (by omega) d hd2

theorem decimalDigitsRev_lt (n : Nat) : ∀ d ∈ decimalDigitsRev n, d < 10 :=
  digitsGo_lt n n (le_refl n)

theorem decimalDigitsRev_ne_nil (n : Nat) : decimalDigitsRev n ≠ [] := by
  rw [decimalDigitsRev]
  cases n with
  | zero => simp [digitsGo]
  | succ m =>
    rw [digitsGo]
    split <;> simp

theorem lsbVal_digitsGo : ∀ fuel n, n ≤ fuel →
    lsbVal ((digitsGo fuel n).map (· + 48)) = n := by
  intro fuel
  induction fuel with
  | zero =>
    intro n hn
    have : n = 0 := by omega
    subst this
    simp [digitsGo, lsbVal]
  | succ f ih =>
    intro n hn
    by_cases h10 : n < 10
    · simp [digitsGo, h10, lsbVal]
    · simp only [digitsGo, if_neg h10, List.map_cons, lsbVal]
      rw [ih (n / 10) (by omega)]
      omega

theorem lsbVal_decimalDigitsRev (n : Nat) :
    lsbVal ((decimalDigitsRev n).map (· + 48)) = n :=
  lsbVal_digitsGo n n (le_refl n)

theorem natDecimal_mem (n : Nat) : ∀ d ∈ natDecimal n, 48 ≤ d ∧ d ≤ 57 := by
  intro d hd
  simp only [natDecimal, List.mem_map, List.mem_reverse] at hd
  obtain ⟨x, hx, rfl⟩ := hd
  have := decimalDigitsRev_lt n x hx
  omega

theorem natDecimal_ne_nil (n : Nat) : natDecimal n ≠ [] := by
  simp [natDecimal, decimalDigitsRev_ne_nil n]

theorem natDecimal_digit (n : Nat) : ∀ d ∈ natDecimal n, u8_is_digit d := by
  intro d hd
  have := natDecimal_mem n d hd
  simp [u8_is_digit]; omega

theorem lsbVal_natDecimal_reverse (n : Nat) : lsbVal (natDecimal n).reverse = n := by
  have : (natDecimal n).reverse = (decimalDigitsRev n).map (· + 48) := by
    simp [natDecimal]
  rw [this, lsbVal_decimalDigitsRev]

theorem csuGo_digits (D : List Nat) : ∀ ret idx, (∀ d ∈ D, u8_is_digit d) →
    csuGo ret idx D = some (ret + lsbVal D * 10 ^ idx) := by
  induction D with
  | nil => intro ret idx _; simp [csuGo, lsbVal]
  | cons d rest ih =>
    intro ret idx hdig
    rw [csuGo, if_pos (hdig d (by simp))]
    rw [ih _ _ (fun x hx => hdig x (by simp [hx]))]
    simp only [lsbVal, Option.some.injEq]
    ring

theorem char_slice_to_usize_natDecimal (n : Nat) :
    char_slice_to_usize (natDecimal n) = some n := by
  rw [char_slice_to_usize, csuGo_digits _ 0 0
    (fun d hd => natDecimal_digit n d (List.mem_reverse.mp hd))]
  simp [lsbVal_natDecimal_reverse]

theorem lsbVal_append_singleton (xs : List Nat) (d : Nat) :
    lsbVal (xs ++ [d]) = lsbVal xs + (d - 48) * 10 ^ xs.length := by
  induction xs with
  | nil => simp [lsbVal]
  | cons x rest ih => simp [lsbVal, ih]; ring

theorem csiGo_digits (D : List Nat) : ∀ ret, (∀ d ∈ D, u8_is_digit d) →
    csiGo ret D.length D = some (ret + (lsbVal D.reverse : Int)) := by
  induction D with
  | nil => intro ret _; simp [csiGo, lsbVal]
  | cons d rest ih =>
    intro ret hdig
    rw [csiGo, if_pos (hdig d (by simp))]
    simp only [List.length_cons, Nat.add_sub_cancel]
    rw [ih _ (fun x hx => hdig x (by simp [hx]))]
    simp only [List.reverse_cons, lsbVal_append_singleton, List.length_reverse,
      Option.some.injEq]
    have hd := hdig d (by simp)
    simp only [u8_is_digit, Bool.and_eq_true, decide_eq_true_eq] at hd
    push_cast [Nat.cast_sub (by omega : 48 ≤ d)]
    ring

theorem char_slice_to_isize_natDecimal (n : Nat) :
    char_slice_to_isize (natDecimal n) = some (n : Int) := by
  have hhead : (natDecimal n).head? ≠ some 45 := by
    cases h : (natDecimal n).head? with
    | none => simp
    | some d =>
      have : d ∈ natDecimal n := by
        cases hd : natDecimal n with
        | nil => simp [hd] at h
        | cons a rest => simp [hd] at h; simp [hd, h]
      have := natDecimal_mem n d this
      simp only [ne_eq, Option.some.injEq]
      omega
  rw [char_slice_to_isize]
  simp only [hhead, if_neg, reduceIte]
  rw [csiGo_digits _ 0 (natDecimal_digit n)]
  simp [lsbVal_natDecimal_reverse]

theorem char_slice_to_isize_neg_natDecimal (n : Nat) :
    char_slice_to_isize (45 :: natDecimal n) = some (-(n : Int)) := by
  rw [char_slice_to_isize]
  simp only [List.head?_cons, List.drop_one, List.length_cons, Nat.add_sub_cancel,
    List.tail_cons, reduceIte]
  rw [csiGo_digits _ 0 (natDecimal_digit n)]
  simp [lsbVal_natDecimal_reverse]

theorem ctxEnded_lt {data : List Nat} {pos : Nat} (h : pos < data.length) :
    ctxEnded data pos = .ok false := by
  unfold ctxEnded
  rw [if_neg (by omega)]
  simp only [Except.ok.injEq, decide_eq_false_iff_not]
  omega

theorem ctxEnded_ge {data : List Nat} {pos : Nat} (hne : data ≠ [])
    (h : data.length ≤ pos) : ctxEnded data pos = .ok true := by
  unfold ctxEnded
  have : data.length ≠ 0 := by simpa [List.length_eq_zero] using hne
  rw [if_neg this]
  simp only [Except.ok.injEq, decide_eq_true_eq]
  omega

theorem ctxPeek_lt {data : List Nat} {pos : Nat} (h : pos < data.length) :
    ctxPeek data pos = .ok (some (data.getD pos 0)) := by
  unfold ctxPeek
  rw [ctxEnded_lt h]

theorem ctxPeek_ge {data : List Nat} {pos : Nat} (hne : data ≠ [])
    (h : data.length ≤ pos) : ctxPeek data pos = .ok none := by
  unfold ctxPeek
  rw [ctxEnded_ge hne h]

theorem ctxAdvanceMany_some {data : List Nat} {pos step : Nat}
    (h : pos < data.length) (h2 : pos + step ≤ data.length) :
    ctxAdvanceMany data pos step =
      .ok (some ((data.drop pos).take step, pos + step)) := by
  unfold ctxAdvanceMany
  rw [ctxEnded_lt h]
  simp only [Bool.false_or]
  rw [if_neg (by simp; omega)]

theorem findIdx?_eq_ch {xs rest : List Nat} {ch : Nat} (hxs : ∀ x ∈ xs, x ≠ ch) :
    (xs ++ ch :: rest).findIdx? (· = ch) = some xs.length := by
  induction xs with
  | nil => simp [List.findIdx?_cons]
  | cons x tail ih =>
    rw [List.cons_append, List.findIdx?_cons]
    rw [if_neg (by simpa using hxs x (by simp))]
    rw [List.findIdx?_succ]
    rw [ih (fun y hy => hxs y (by simp [hy]))]
    simp

theorem ctxPosition_found {data : List Nat} {pos i ch : Nat}
    (h : pos < data.length)
    (hfind : (data.drop pos).findIdx? (· = ch) = some i) :
    ctxPosition data pos ch = .ok i := by
  unfold ctxPosition
  rw [ctxEnded_lt h, hfind]

/-- decode.rs `decode_string` on the canonical rendering of a nonempty
byte string: length digits, colon, content; the result is the content as
code points with the cursor past the content. -/
theorem decode_string_spec (S : List Nat) (hS : S ≠ []) :
    decode_string (natDecimal S.length ++ 58 :: S) 0 =
      .ok (S, (natDecimal S.length).length + 1 + S.length) := by
  obtain ⟨a, tl, hnd⟩ := List.exists_cons_of_ne_nil (natDecimal_ne_nil S.length)
  set ND := natDecimal S.length with hND
  have hndlen : 0 < ND.length := by rw [hnd]; simp
  have hSlen : 0 < S.length := List.length_pos.mpr hS
  set data := ND ++ 58 :: S with hdata
  have hlen : data.length = ND.length + 1 + S.length := by
    simp [hdata]; omega
  have h0 : 0 < data.length := by omega
  have hget0 : data.getD 0 0 = a := by rw [hdata, hnd]; simp
  have hdigit : u8_is_digit a = true :=
    natDecimal_digit S.length a (by rw [← hND, hnd]; simp)
  have hfind : (data.drop 0).findIdx? (· = 58) = some ND.length := by
    rw [List.drop_zero, hdata]
    exact findIdx?_eq_ch (fun x hx => by
      have := natDecimal_mem S.length x (hND ▸ hx)
      omega)
  have hadv1 : ctxAdvanceMany data 0 ND.length =
      .ok (some ((data.drop 0).take ND.length, 0 + ND.length)) :=
    ctxAdvanceMany_some h0 (by omega)
  have htake : (data.drop 0).take ND.length = ND := by
    rw [List.drop_zero, hdata, List.take_left]
  have hpos1 : ND.length + 1 < data.length := by omega
  have hadv2 : ctxAdvanceMany data (ND.length + 1) S.length =
      .ok (some ((data.drop (ND.length + 1)).take S.length, ND.length + 1 + S.length)) :=
    ctxAdvanceMany_some hpos1 (by omega)
  have hdrop : data.drop (ND.length + 1) = S := by
    rw [hdata]
    rw [show ND.length + 1 = (ND ++ [58]).length by simp]
    rw [show ND ++ 58 :: S = (ND ++ [58]) ++ S by simp]
    rw [List.drop_left]
  have hcsu : char_slice_to_usize ND = some S.length := by
    rw [hND]; exact char_slice_to_usize_natDecimal _
  simp only [decode_string, ctxPeek_lt h0, hget0, Option.map_some, Option.map_some',
    hdigit, ne_eq, not_true_eq_false, if_false, ctxPosition_found h0 hfind,
    hadv1, htake, Nat.zero_add, hcsu,
    hadv2, hdrop, List.take_of_length_le (le_refl S.length)]

theorem intDecimal_mem (n : Int) : ∀ d ∈ intDecimal n, d = 45 ∨ (48 ≤ d ∧ d ≤ 57) := by
  intro d hd
  rw [intDecimal] at hd
  split at hd
  · rcases List.mem_cons.mp hd with h | h
    · exact Or.inl h
    · exact Or.inr (natDecimal_mem _ d h)
  · exact Or.inr (natDecimal_mem _ d hd)

theorem intDecimal_ne_nil (n : Int) : intDecimal n ≠ [] := by
  rw [intDecimal]
  split
  · simp
  · exact natDecimal_ne_nil _

theorem char_slice_to_isize_intDecimal (n : Int) :
    char_slice_to_isize (intDecimal n) = some n := by
  rw [intDecimal]
  split
  · rw [char_slice_to_isize_neg_natDecimal]
    congr 1
    omega
  · rw [char_slice_to_isize_natDecimal]
    congr 1
    omega

/-- decode.rs `decode_integer` on the canonical rendering `i`, decimal
digits (minus sign first when negative), `e`: yields the integer with the
cursor past the closing `e`. -/
theorem decode_integer_spec (n : Int) :
    decode_integer (105 :: intDecimal n ++ [101]) 0 =
      .ok (n, (intDecimal n).length + 2) := by
  set body := intDecimal n with hbody
  have hbne : body ≠ [] := intDecimal_ne_nil n
  have hblen : 0 < body.length := List.length_pos.mpr hbne
  set data := 105 :: body ++ [101] with hdata
  have hlen : data.length = body.length + 2 := by simp [hdata]
  have h0 : 0 < data.length := by omega
  have hget0 : data.getD 0 0 = 105 := by rw [hdata]; simp
  have hfind : (data.drop 0).findIdx? (· = 101) = some (body.length + 1) := by
    rw [List.drop_zero, hdata]
    rw [show (105 : Nat) :: body ++ [101] = (105 :: body) ++ 101 :: [] by simp]
    rw [findIdx?_eq_ch (fun x hx => by
      rcases List.mem_cons.mp hx with h | h
      · omega
      · rcases intDecimal_mem n x (hbody ▸ h) with h | h <;> omega)]
    simp
  have hadv : ctxAdvanceMany data (0 + 1) (body.length + 1 - 1) =
      .ok (some ((data.drop 1).take body.length, 1 + body.length)) := by
    rw [show body.length + 1 - 1 = body.length by omega]
    exact ctxAdvanceMany_some (by omega) (by omega)
  have htake : (data.drop 1).take body.length = body := by
    rw [hdata]
    exact List.take_left body [101]
  have hcsi : char_slice_to_isize body = some n := by
    rw [hbody]; exact char_slice_to_isize_intDecimal n
  simp only [decode_integer, ctxPeek_lt h0, hget0, ne_eq, Option.some.injEq,
    not_true_eq_false, if_false, ctxPosition_found h0 hfind, hadv, htake, hcsi]
  have : 1 + body.length + 1 = body.length + 2 := by omega
  rw [this]

theorem utf8Char_ascii {c : Nat} (h : c < 128) : utf8Char c = [c] := by
  rw [utf8Char, if_pos h]

theorem utf8Char_length_ge {c : Nat} (h : 128 ≤ c) : 2 ≤ (utf8Char c).length := by
  rw [utf8Char]
  split_ifs with h1 h2 h3
  · omega
  · simp
  · simp
  · simp

theorem utf8Encode_ascii {s : List Nat} (h : ∀ c ∈ s, c < 128) :
    utf8Encode s = s := by
  induction s with
  | nil => rfl
  | cons c rest ih =>
    rw [utf8Encode, List.flatMap_cons, utf8Char_ascii (h c (by simp))]
    rw [show rest.flatMap utf8Char = utf8Encode rest from rfl]
    rw [ih (fun x hx => h x (by simp [hx]))]
    rfl

theorem utf8Encode_length_ge (s : List Nat) : s.length ≤ (utf8Encode s).length := by
  induction s with
  | nil => simp [utf8Encode]
  | cons c rest ih =>
    rw [utf8Encode, List.flatMap_cons]
    rw [show rest.flatMap utf8Char = utf8Encode rest from rfl]
    have : 1 ≤ (utf8Char c).length := by
      by_cases h : c < 128
      · simp [utf8Char_ascii h]
      · have := utf8Char_length_ge (by omega : 128 ≤ c)
        omega
    simp only [List.length_append, List.length_cons]
    omega

theorem utf8Encode_length_gt {s : List Nat} {c : Nat} (hc : c ∈ s) (h : 128 ≤ c) :
    s.length < (utf8Encode s).length := by
  induction s with
  | nil => simp at hc
  | cons a rest ih =>
    rw [utf8Encode, List.flatMap_cons]
    rw [show rest.flatMap utf8Char = utf8Encode rest from rfl]
    simp only [List.length_append, List.length_cons]
    rcases List.mem_cons.mp hc with rfl | hmem
    · have h1 := utf8Char_length_ge h
      have h2 := utf8Encode_length_ge rest
      omega
    · have h1 : 1 ≤ (utf8Char a).length := by
        by_cases hca : a < 128
        · simp [utf8Char_ascii hca]
        · have := utf8Char_length_ge (by omega : 128 ≤ a)
          omega
      have h2 := ih hmem
      omega

/-- The UTF-8 serialisation of a string is the identity exactly on pure
ASCII content. -/
theorem utf8Encode_eq_self_iff (s : List Nat) :
    utf8Encode s = s ↔ ∀ c ∈ s, c < 128 := by
  constructor
  · intro h
    by_contra hne
    push_neg at hne
    obtain ⟨c, hc, hge⟩ := hne
    have := utf8Encode_length_gt hc (by omega)
    rw [h] at this
    omega
  · exact utf8Encode_ascii

theorem ctxPeek_ok_some {data : List Nat} {pos x : Nat}
    (h : ctxPeek data pos = .ok (some x)) :
    pos < data.length ∧ data.getD pos 0 = x := by
  by_cases hlen : data.length = 0
  · unfold ctxPeek ctxEnded at h
    rw [if_pos hlen] at h
    simp at h
  · by_cases hp : data.length ≤ pos
    · rw [ctxPeek_ge (by simpa [List.length_eq_zero] using hlen) hp] at h
      simp at h
    · push_neg at hp
      rw [ctxPeek_lt hp] at h
      simp only [Except.ok.injEq, Option.some.injEq] at h
      exact ⟨hp, h⟩

theorem ctxPeek_append_of_lt {data ext : List Nat} {pos : Nat}
    (h : pos < data.length) :
    ctxPeek (data ++ ext) pos = ctxPeek data pos := by
  rw [ctxPeek_lt h, ctxPeek_lt (by simp; omega)]
  rw [List.getD_append _ _ _ _ h]

theorem ctxPosition_ok {data : List Nat} {pos ch i : Nat}
    (h : ctxPosition data pos ch = .ok i) :
    pos < data.length ∧ (data.drop pos).findIdx? (· = ch) = some i := by
  by_cases hlen : data.length = 0
  · unfold ctxPosition ctxEnded at h
    rw [if_pos hlen] at h
    simp at h
  · by_cases hp : data.length ≤ pos
    · unfold ctxPosition at h
      rw [ctxEnded_ge (by simpa [List.length_eq_zero] using hlen) hp] at h
      simp at h
    · push_neg at hp
      unfold ctxPosition at h
      rw [ctxEnded_lt hp] at h
      refine ⟨hp, ?_⟩
      split at h
      · simp at h
      · simp at h
      · split at h
        · rename_i v hv
          simp only [Except.ok.injEq] at h
          rw [hv, h]
        · simp at h

theorem ctxPosition_ext {data ext : List Nat} {pos ch i : Nat}
    (h : ctxPosition data pos ch = .ok i) :
    ctxPosition (data ++ ext) pos ch = .ok i := by
  obtain ⟨hlt, hfind⟩ := ctxPosition_ok h
  apply ctxPosition_found (by simp; omega)
  rw [List.drop_append_of_le_length (by omega)]
  rw [List.findIdx?_append, hfind]
  rfl

theorem ctxAdvanceMany_ok {data : List Nat} {pos step : Nat} {s : List Nat} {q : Nat}
    (h : ctxAdvanceMany data pos step = .ok (some (s, q))) :
    pos < data.length ∧ pos + step ≤ data.length ∧
      s = (data.drop pos).take step ∧ q = pos + step := by
  by_cases hlen : data.length = 0
  · unfold ctxAdvanceMany ctxEnded at h
    rw [if_pos hlen] at h
    simp at h
  · by_cases hp : data.length ≤ pos
    · unfold ctxAdvanceMany at h
      rw [ctxEnded_ge (by simpa [List.length_eq_zero] using hlen) hp] at h
      simp at h
    · push_neg at hp
      unfold ctxAdvanceMany at h
      rw [ctxEnded_lt hp] at h
      split at h
      · simp at h
      · rename_i ended heq
        rw [show ended = false by simpa using heq.symm] at h
        simp only [Bool.false_or] at h
        split at h
        · simp at h
        · rename_i hcond
          simp only [decide_eq_true_eq, not_lt] at hcond
          simp only [Except.ok.injEq, Option.some.injEq, Prod.mk.injEq] at h
          exact ⟨hp, by omega, h.1.symm, h.2.symm⟩

theorem ctxAdvanceMany_ext {data ext : List Nat} {pos step : Nat} {s : List Nat} {q : Nat}
    (h : ctxAdvanceMany data pos step = .ok (some (s, q))) :
    ctxAdvanceMany (data ++ ext) pos step = .ok (some (s, q)) := by
  obtain ⟨h1, h2, h3, h4⟩ := ctxAdvanceMany_ok h
  rw [ctxAdvanceMany_some (by simp; omega) (by simp; omega)]
  rw [List.drop_append_of_le_length (by omega)]
  rw [List.take_append_of_le_length (by simp; omega)]
  rw [h3, h4]

/-- A successful `decode_string` run is unchanged by appending bytes to
the input: every read it performed was strictly inside the original
data. -/
theorem decode_string_ext {data ext : List Nat} {pos : Nat} {r : List Nat × Nat}
    (h : decode_string data pos = .ok r) :
    decode_string (data ++ ext) pos = .ok r := by
  unfold decode_string at h
  split at h
  · simp at h
  · rename_i pk hpk
    split at h
    · simp at h
    · rename_i hcond
      rcases pk with _ | x
      · simp at hcond
      · have hdig : u8_is_digit x = true := by simpa using hcond
        have hlt := (ctxPeek_ok_some hpk).1
        split at h
        · simp at h
        · rename_i col hpos
          split at h
          · simp at h
          · simp at h
          · rename_i lenBytes pos1 hadv
            split at h
            · simp at h
            · rename_i slen hsl
              split at h
              · simp at h
              · simp at h
              · rename_i s pos2 hadv2
                simp only [decode_string, ctxPeek_append_of_lt hlt, hpk,
                  Option.map_some', hdig, ne_eq, not_true_eq_false, if_false,
                  ctxPosition_ext hpos, ctxAdvanceMany_ext hadv, hsl,
                  ctxAdvanceMany_ext hadv2]
                exact h

/-- A successful `decode_bytes` run is unchanged by appending bytes to the
input. -/
theorem decode_bytes_ext {data ext : List Nat} {pos : Nat} {r : List Nat × Nat}
    (h : decode_bytes data pos = .ok r) :
    decode_bytes (data ++ ext) pos = .ok r := by
  unfold decode_bytes at h
  split at h
  · simp at h
  · rename_i pk hpk
    split at h
    · simp at h
    · rename_i hcond
      rcases pk with _ | x
      · simp at hcond
      · have hdig : u8_is_digit x = true := by simpa using hcond
        have hlt := (ctxPeek_ok_some hpk).1
        split at h
        · simp at h
        · rename_i col hpos
          split at h
          · simp at h
          · simp at h
          · rename_i lenBytes pos1 hadv
            split at h
            · simp at h
            · rename_i slen hsl
              split at h
              · simp at h
              · simp at h
              · rename_i s pos2 hadv2
                simp only [decode_bytes, ctxPeek_append_of_lt hlt, hpk,
                  Option.map_some', hdig, ne_eq, not_true_eq_false, if_false,
                  ctxPosition_ext hpos, ctxAdvanceMany_ext hadv, hsl,
                  ctxAdvanceMany_ext hadv2]
                exact h

/-- A successful `decode_integer` run is unchanged by appending bytes to
the input. -/
theorem decode_integer_ext {data ext : List Nat} {pos : Nat} {r : Int × Nat}
    (h : decode_integer data pos = .ok r) :
    decode_integer (data ++ ext) pos = .ok r := by
  unfold decode_integer at h
  split at h
  · simp at h
  · rename_i pk hpk
    split at h
    · simp at h
    · rename_i hcond
      have hpk105 : pk = some 105 := by
        by_contra hne
        exact hcond hne
      subst hpk105
      have hlt := (ctxPeek_ok_some hpk).1
      split at h
      · simp at h
      · simp at h
      · rename_i iep hpos
        split at h
        · simp at h
        · simp at h
        · rename_i xs pos1 hadv
          split at h
          · simp at h
          · rename_i n hcsi
            simp only [decode_integer, ctxPeek_append_of_lt hlt, hpk, ne_eq,
              Option.some.injEq, not_true_eq_false, if_false,
              ctxPosition_ext hpos, ctxAdvanceMany_ext hadv, hcsi]
            exact h

theorem ctxPeek_ok_none {data : List Nat} {pos : Nat}
    (h : ctxPeek data pos = .ok none) :
    data ≠ [] ∧ data.length ≤ pos := by
  by_cases hlen : data.length = 0
  · unfold ctxPeek ctxEnded at h
    rw [if_pos hlen] at h
    simp at h
  · by_cases hp : data.length ≤ pos
    · exact ⟨by simpa [List.length_eq_zero] using hlen, hp⟩
    · push_neg at hp
      rw [ctxPeek_lt hp] at h
      simp at h

theorem ctxPeek_append_e_at_end {data : List Nat} {pos : Nat}
    (hpos : pos = data.length) :
    ctxPeek (data ++ [101]) pos = .ok (some 101) := by
  rw [ctxPeek_lt (by simp; omega)]
  rw [hpos, List.getD_append_right _ _ _ _ (le_refl _)]
  simp

/-- Appending the list/dictionary terminator `e` to the input does not
change any successful run of the recursive decoder: every read of a
successful run is inside the original data, and the loop break treats the
appended `e` and end-of-input identically. -/
theorem decode_ext_all : ∀ fuel : Nat,
    (∀ data pos r, decode_bencoded_value fuel data pos = .ok r →
      decode_bencoded_value fuel (data ++ [101]) pos = .ok r) ∧
    (∀ data pos r, decode_list fuel data pos = .ok r →
      decode_list fuel (data ++ [101]) pos = .ok r) ∧
    (∀ data pos acc r, decode_listLoop fuel data pos acc = .ok r →
      decode_listLoop fuel (data ++ [101]) pos acc = .ok r) ∧
    (∀ data pos r, decode_dictionary fuel data pos = .ok r →
      decode_dictionary fuel (data ++ [101]) pos = .ok r) ∧
    (∀ data pos st vals r, decode_dictLoop fuel data pos st vals = .ok r →
      decode_dictLoop fuel (data ++ [101]) pos st vals = .ok r) := by
  intro fuel
  induction fuel with
  | zero =>
    refine ⟨?_, ?_, ?_, ?_, ?_⟩
    · intro data pos r h
      rw [decode_bencoded_value.eq_1] at h
      simp at h
    · intro data pos r h
      rw [decode_list.eq_1] at h
      simp at h
    · intro data pos acc r h
      rw [decode_listLoop.eq_1] at h
      simp at h
    · intro data pos r h
      rw [decode_dictionary.eq_1] at h
      simp at h
    · intro data pos st vals r h
      rw [decode_dictLoop.eq_1] at h
      simp at h
  | succ f ih =>
    obtain ⟨ihv, ihl, ihll, ihd, ihdl⟩ := ih
    have hloopL : ∀ data pos acc r, decode_listLoop (f + 1) data pos acc = .ok r →
        decode_listLoop (f + 1) (data ++ [101]) pos acc = .ok r := by
      intro data pos acc r h
      rw [decode_listLoop.eq_2] at h
      split at h
      · simp at h
      · rename_i pk heq
        by_cases h101 : pk = some 101
        · rw [if_pos h101] at h
          subst h101
          have hlt := (ctxPeek_ok_some heq).1
          rw [decode_listLoop.eq_2]
          simpa [ctxPeek_append_of_lt hlt, heq] using h
        · rw [if_neg h101] at h
          by_cases hnone : pk = none
          · rw [if_pos hnone] at h
            subst hnone
            obtain ⟨hne, hge⟩ := ctxPeek_ok_none heq
            by_cases hpe : pos = data.length
            · rw [decode_listLoop.eq_2]
              simpa [ctxPeek_append_e_at_end hpe] using h
            · rw [decode_listLoop.eq_2]
              simpa [ctxPeek_ge (by simp : (data ++ [101]) ≠ [])
                (by simp; omega : (data ++ [101]).length ≤ pos)] using h
          · rw [if_neg hnone] at h
            split at h
            · simp at h
            · rename_i v pos1 hv
              obtain ⟨x, hx⟩ : ∃ x, pk = some x := by
                cases pk
                · exact absurd rfl hnone
                · exact ⟨_, rfl⟩
              subst hx
              have hlt := (ctxPeek_ok_some heq).1
              have ihv2 := ihv _ _ _ hv
              have ihl2 := ihll _ _ _ _ h
              rw [decode_listLoop.eq_2]
              simp only [ctxPeek_append_of_lt hlt, heq, if_neg h101, if_neg hnone,
                ihv2, ihl2]
    have hloopD : ∀ data pos st vals r, decode_dictLoop (f + 1) data pos st vals = .ok r →
        decode_dictLoop (f + 1) (data ++ [101]) pos st vals = .ok r := by
      intro data pos st vals r h
      cases st with
      | none =>
        rw [decode_dictLoop.eq_2] at h
        split at h
        · simp at h
        · rename_i pk heq
          by_cases h101 : pk = some 101
          · rw [if_pos h101] at h
            subst h101
            have hlt := (ctxPeek_ok_some heq).1
            rw [decode_dictLoop.eq_2]
            simpa [ctxPeek_append_of_lt hlt, heq] using h
          · rw [if_neg h101] at h
            by_cases hnone : pk = none
            · rw [if_pos hnone] at h
              subst hnone
              obtain ⟨hne, hge⟩ := ctxPeek_ok_none heq
              by_cases hpe : pos = data.length
              · rw [decode_dictLoop.eq_2]
                simpa [ctxPeek_append_e_at_end hpe] using h
              · rw [decode_dictLoop.eq_2]
                simpa [ctxPeek_ge (by simp : (data ++ [101]) ≠ [])
                  (by simp; omega : (data ++ [101]).length ≤ pos)] using h
            · rw [if_neg hnone] at h
              split at h
              · simp at h
              · rename_i v pos1 hv
                split at h
                · rename_i s
                  obtain ⟨x, hx⟩ : ∃ x, pk = some x := by
                    cases pk
                    · exact absurd rfl hnone
                    · exact ⟨_, rfl⟩
                  subst hx
                  have hlt := (ctxPeek_ok_some heq).1
                  have ihv2 := ihv _ _ _ hv
                  have ihl2 := ihdl _ _ _ _ _ h
                  rw [decode_dictLoop.eq_2]
                  simp only [ctxPeek_append_of_lt hlt, heq, if_neg h101,
                    if_neg hnone, ihv2, ihl2]
                · simp at h
      | some k =>
        rw [decode_dictLoop.eq_3] at h
        split at h
        · simp at h
        · rename_i pk heq
          by_cases h101 : pk = some 101
          · rw [if_pos h101] at h
            subst h101
            have hlt := (ctxPeek_ok_some heq).1
            rw [decode_dictLoop.eq_3]
            simpa [ctxPeek_append_of_lt hlt, heq] using h
          · rw [if_neg h101] at h
            by_cases hnone : pk = none
            · rw [if_pos hnone] at h
              subst hnone
              obtain ⟨hne, hge⟩ := ctxPeek_ok_none heq
              by_cases hpe : pos = data.length
              · rw [decode_dictLoop.eq_3]
                simpa [ctxPeek_append_e_at_end hpe] using h
              · rw [decode_dictLoop.eq_3]
                simpa [ctxPeek_ge (by simp : (data ++ [101]) ≠ [])
                  (by simp; omega : (data ++ [101]).length ≤ pos)] using h
            · rw [if_neg hnone] at h
              obtain ⟨x, hx⟩ : ∃ x, pk = some x := by
                cases pk
                · exact absurd rfl hnone
                · exact ⟨_, rfl⟩
              subst hx
              have hlt := (ctxPeek_ok_some heq).1
              split at h
              · rename_i hk
                split at h
                · simp at h
                · rename_i bv pos1 hb
                  have ihb := @decode_bytes_ext _ [101] _ _ hb
                  have ihl2 := ihdl _ _ _ _ _ h
                  rw [decode_dictLoop.eq_3]
                  simp only [ctxPeek_append_of_lt hlt, heq, if_neg h101,
                    if_neg hnone, if_pos hk, ihb, ihl2]
              · rename_i hk
                split at h
                · simp at h
                · rename_i v pos1 hv
                  have ihv2 := ihv _ _ _ hv
                  have ihl2 := ihdl _ _ _ _ _ h
                  rw [decode_dictLoop.eq_3]
                  simp only [ctxPeek_append_of_lt hlt, heq, if_neg h101,
                    if_neg hnone, if_neg hk, ihv2, ihl2]
    have hlist : ∀ data pos r, decode_list (f + 1) data pos = .ok r →
        decode_list (f + 1) (data ++ [101]) pos = .ok r := by
      intro data pos r h
      rw [decode_list.eq_2] at h
      split at h
      · simp at h
      · rename_i pk heq
        split at h
        · simp at h
        · rename_i hpk
          have hpk108 : pk = some 108 := by
            by_contra hne
            exact hpk hne
          subst hpk108
          have hlt := (ctxPeek_ok_some heq).1
          split at h
          · simp at h
          · rename_i values pos1 hloop
            have ihl2 := ihll _ _ _ _ hloop
            rw [decode_list.eq_2]
            simp only [ctxPeek_append_of_lt hlt, heq, ne_eq, not_true_eq_false,
              if_false, ihl2]
            exact h
    have hdict : ∀ data pos r, decode_dictionary (f + 1) data pos = .ok r →
        decode_dictionary (f + 1) (data ++ [101]) pos = .ok r := by
      intro data pos r h
      rw [decode_dictionary.eq_2] at h
      split at h
      · simp at h
      · rename_i pk heq
        split at h
        · simp at h
        · rename_i hpk
          have hpk100 : pk = some 100 := by
            by_contra hne
            exact hpk hne
          subst hpk100
          have hlt := (ctxPeek_ok_some heq).1
          split at h
          · simp at h
          · rename_i values pos1 hloop
            have ihl2 := ihdl _ _ _ _ _ hloop
            rw [decode_dictionary.eq_2]
            simp only [ctxPeek_append_of_lt hlt, heq, ne_eq, not_true_eq_false,
              if_false, ihl2]
            exact h
    have hvalue : ∀ data pos r, decode_bencoded_value (f + 1) data pos = .ok r →
        decode_bencoded_value (f + 1) (data ++ [101]) pos = .ok r := by
      intro data pos r h
      rw [decode_bencoded_value.eq_2] at h
      split at h
      · simp at h
      · simp at h
      · rename_i flag heq
        have hlt := (ctxPeek_ok_some heq).1
        rw [decode_bencoded_value.eq_2]
        simp only [ctxPeek_append_of_lt hlt, heq]
        by_cases hd : u8_is_digit flag
        · rw [if_pos hd] at h ⊢
          split at h
          · simp at h
          · rename_i s pos1 hs
            rw [decode_string_ext hs]
            simpa using h
        · rw [if_neg hd] at h ⊢
          by_cases hi : flag = 105
          · rw [if_pos hi] at h ⊢
            split at h
            · simp at h
            · rename_i n pos1 hn
              rw [decode_integer_ext hn]
              simpa using h
          · rw [if_neg hi] at h ⊢
            by_cases hl : flag = 108
            · rw [if_pos hl] at h ⊢
              exact ihl _ _ _ h
            · rw [if_neg hl] at h ⊢
              by_cases hdd : flag = 100
              · rw [if_pos hdd] at h ⊢
                exact ihd _ _ _ h
              · rw [if_neg hdd] at h
                simp at h
    exact ⟨hvalue, hlist, hloopL, hdict, hloopD⟩

/-- The list loop at end-of-input returns the elements parsed so far and
advances once, exactly as it does on a closing `e`. -/
theorem decode_listLoop_at_end {fuel : Nat} {data : List Nat} {pos : Nat}
    {acc : List JSValue} (hne : data ≠ []) (hge : data.length ≤ pos) :
    decode_listLoop (fuel + 1) data pos acc = .ok (acc, pos + 1) := by
  rw [decode_listLoop.eq_2, ctxPeek_ge hne hge]
  simp

/-- The dictionary loop at end-of-input returns the pairs parsed so far
(without advancing, as on a closing `e`). -/
theorem decode_dictLoop_at_end {fuel : Nat} {data : List Nat} {pos : Nat}
    {st : Option (List Nat)} {vals : List (List Nat × JSValue)}
    (hne : data ≠ []) (hge : data.length ≤ pos) :
    decode_dictLoop (fuel + 1) data pos st vals = .ok (vals, pos) := by
  cases st with
  | none =>
    rw [decode_dictLoop.eq_2, ctxPeek_ge hne hge]
    simp
  | some k =>
    rw [decode_dictLoop.eq_3, ctxPeek_ge hne hge]
    simp

/-- Lowercasing of ASCII hex digits (spec-side: "up to letter case"). -/
def hexToLower (c : Nat) : Nat := if 65 ≤ c ∧ c ≤ 70 then c + 32 else c

theorem hexVal_lt {c v : Nat} (h : hexVal c = some v) : v < 16 := by
  unfold hexVal at h
  split_ifs at h <;> simp only [Option.some.injEq] at h <;> omega

theorem hexDigitChar_hexVal {c v : Nat} (h : hexVal c = some v) :
    hexDigitChar v = hexToLower c := by
  unfold hexVal at h
  unfold hexDigitChar hexToLower
  split_ifs at h <;> simp only [Option.some.injEq] at h <;> split_ifs <;> omega

theorem hexDecode_encode : ∀ H : List Nat, H.length % 2 = 0 →
    (∀ c ∈ H, (hexVal c).isSome) →
    ∃ bs, hexDecode H = some bs ∧ hexEncode bs = H.map hexToLower := by
  suffices hyp : ∀ n (H : List Nat), H.length = n → H.length % 2 = 0 →
      (∀ c ∈ H, (hexVal c).isSome) →
      ∃ bs, hexDecode H = some bs ∧ hexEncode bs = H.map hexToLower by
    exact fun H => hyp H.length H rfl
  intro n
  induction n using Nat.strong_induction_on with
  | _ n ihn =>
    intro H hn heven hdig
    match H with
    | [] => exact ⟨[], by simp [hexDecode, hexEncode]⟩
    | [a] => simp at heven
    | a :: b :: rest =>
      obtain ⟨va, hva⟩ := Option.isSome_iff_exists.mp (hdig a (by simp))
      obtain ⟨vb, hvb⟩ := Option.isSome_iff_exists.mp (hdig b (by simp))
      have hrlen : rest.length = n - 2 := by simp at hn; omega
      obtain ⟨tail, htail, henc⟩ := ihn (n - 2) (by simp at hn; omega) rest hrlen
        (by simp at heven ⊢; omega) (fun c hc => hdig c (by simp [hc]))
      refine ⟨(va * 16 + vb) :: tail, ?_, ?_⟩
      · rw [hexDecode]
        rw [hva, hvb, htail]
      · have h16a := hexVal_lt hva
        have h16b := hexVal_lt hvb
        rw [hexEncode]
        rw [show (va * 16 + vb) / 16 = va by omega,
          show (va * 16 + vb) % 16 = vb by omega]
        rw [henc, hexDigitChar_hexVal hva, hexDigitChar_hexVal hvb]
        simp

/-- Spec-side: value of the LAST occurrence of `key` among the parsed
pairs, with a default for when the key never occurs. -/
def lastParamOr (key : List Nat) (pairs : List (List Nat × List Nat))
    (dflt : Option (List Nat)) : Option (List Nat) :=
  match (pairs.filter (fun p => p.1 = key)).getLast? with
  | some p => some p.2
  | none => dflt

theorem getLast?_cons_cases {α : Type} (a : α) (l : List α) :
    (a :: l).getLast? = match l.getLast? with
      | some x => some x
      | none => some a := by
  cases hl : l.getLast? with
  | none =>
    have : l = [] := List.getLast?_eq_none_iff.mp hl
    subst this
    simp
  | some x =>
    cases l with
    | nil => simp at hl
    | cons b t =>
      rw [List.getLast?_cons_cons, hl]

theorem lastParamOr_cons_hit (key : List Nat) (v : List Nat)
    (rest : List (List Nat × List Nat)) (dflt : Option (List Nat)) :
    lastParamOr key ((key, v) :: rest) dflt = lastParamOr key rest (some v) := by
  unfold lastParamOr
  rw [List.filter_cons, if_pos (by simp)]
  rw [getLast?_cons_cases]
  cases (rest.filter (fun p => p.1 = key)).getLast? <;> simp

theorem lastParamOr_cons_miss {key k : List Nat} (hne : k ≠ key) (v : List Nat)
    (rest : List (List Nat × List Nat)) (dflt : Option (List Nat)) :
    lastParamOr key ((k, v) :: rest) dflt = lastParamOr key rest dflt := by
  unfold lastParamOr
  rw [List.filter_cons]
  simp [hne]

/-- The `for` loop of `Magnet::new` keeps, for each of the keys `dn` and
`tr`, the value of its last occurrence. -/
theorem magnet_fold_spec : ∀ (pairs : List (List Nat × List Nat))
    (d0 t0 : Option (List Nat)),
    pairs.foldl
      (fun (acc : Option (List Nat) × Option (List Nat)) nv =>
        if nv.1 = strBytes "dn" then (some nv.2, acc.2)
        else if nv.1 = strBytes "tr" then (acc.1, some nv.2)
        else acc) (d0, t0) =
    (lastParamOr (strBytes "dn") pairs d0, lastParamOr (strBytes "tr") pairs t0) := by
  intro pairs
  induction pairs with
  | nil => intro d0 t0; simp [lastParamOr]
  | cons nv rest ih =>
    intro d0 t0
    obtain ⟨k, v⟩ := nv
    simp only [List.foldl_cons]
    by_cases hdn : k = strBytes "dn"
    · subst hdn
      rw [if_pos rfl, ih, lastParamOr_cons_hit,
        lastParamOr_cons_miss (by decide) v rest t0]
    · rw [if_neg hdn]
      by_cases htr : k = strBytes "tr"
      · subst htr
        rw [if_pos rfl, ih, lastParamOr_cons_hit,
          lastParamOr_cons_miss (by decide) v rest d0]
      · rw [if_neg htr, ih, lastParamOr_cons_miss hdn v rest d0,
          lastParamOr_cons_miss htr v rest t0]

/-- C8: magnet.rs `Magnet::new` accepts any URI made of the
`magnet:?xt=urn:btih:` prefix, 40 hex characters and a remainder; the
stored 20-byte info hash re-hex-encodes to the lowercase form of the 40
hex characters (reproducing them up to letter case); and the `dn` and
`tr` fields hold the last value of exactly those keys among the parsed
url-encoded pairs of the remainder, with every other key ignored. -/
theorem magnet_new_spec (H rest : List Nat)
    (hlen : H.length = 40) (hhex : ∀ c ∈ H, (hexVal c).isSome) :
    ∃ m, Magnet.new (strBytes "magnet:?xt=urn:btih:" ++ H ++ rest) = .ok m ∧
      hexEncode m.info_hash = H.map hexToLower ∧
      m.download_name = lastParamOr (strBytes "dn") (urlencodedParse rest) none ∧
      m.tracker_url = lastParamOr (strBytes "tr") (urlencodedParse rest) none := by
  have hPlen : (strBytes "magnet:?xt=urn:btih:").length = 20 := by decide
  have heq1 : (strBytes "magnet:?xt=urn:btih:" ++ H ++ rest).drop 20 = H ++ rest := by
    rw [List.append_assoc]
    exact List.drop_left' hPlen
  have htake : (H ++ rest).take 40 = H := List.take_left' hlen
  have hdrop40 : (H ++ rest).drop 40 = rest := List.drop_left' hlen
  obtain ⟨bs, hbs, hencbs⟩ := hexDecode_encode H (by omega) hhex
  have hpre : (strBytes "magnet:?xt=urn:btih:").isPrefixOf
      (strBytes "magnet:?xt=urn:btih:" ++ H ++ rest) = true := by
    rw [List.isPrefixOf_iff_prefix, List.append_assoc]
    exact List.prefix_append _ _
  have hcond : ¬(¬((strBytes "magnet:?xt=urn:btih:").isPrefixOf
      (strBytes "magnet:?xt=urn:btih:" ++ H ++ rest) = true) ∨
      (strBytes "magnet:?xt=urn:btih:" ++ H ++ rest).length < 20 + 40) := by
    push_neg
    refine ⟨hpre, ?_⟩
    simp only [List.length_append, hPlen, hlen]
    omega
  rw [Magnet.new, if_neg hcond]
  simp only [heq1, htake, hdrop40, hbs]
  by_cases hre : rest.isEmpty
  · rw [if_pos hre]
    refine ⟨_, rfl, hencbs, ?_, ?_⟩ <;>
      · rw [List.isEmpty_iff.mp hre]
        rfl
  · rw [if_neg hre]
    rw [magnet_fold_spec]
    exact ⟨_, rfl, hencbs, rfl, rfl⟩

/-- C6: torrent.rs `Torrent::try_from`: whenever the conversion succeeds,
the stored `info_hash` is the 40-hex rendering of the SHA-1 of the bytes
produced by re-encoding the decoded `info` sub-dictionary with
`encode_dictionary`. -/
theorem torrent_try_from_info_hash (v : JSValue) (t : Torrent)
    (h : Torrent.tryFrom v = .ok t) :
    ∃ m bs, (jsGet v (strBytes "info")).bind asObject = some m ∧
      encode_dictionary m = .ok bs ∧ t.info_hash = hexEncode (sha1 bs) := by
  unfold Torrent.tryFrom at h
  split at h
  · simp at h
  · rename_i m hm
    split at h
    · simp at h
    · rename_i bs hbs
      split at h
      · simp at h
      · rename_i tor htor
        simp only [Except.ok.injEq] at h
        refine ⟨m, bs, hm, hbs, ?_⟩
        rw [← h]

/-- The entry loop of encode.rs `encode_dictionary` panics (modelled as
`.error`) whenever some entry under the key `pieces` or `peers` is not a
string or is a string that is not valid hexadecimal. -/
theorem encode_dictEntries_bad : ∀ (entries : List (List Nat × JSValue))
    (k : List Nat) (v : JSValue), (k, v) ∈ entries →
    (k = strBytes "pieces" ∨ k = strBytes "peers") →
    ((∀ s, v ≠ JSValue.str s) ∨ ∃ s, v = JSValue.str s ∧ hexDecode s = none) →
    ∃ msg, encode_dictEntries entries = .error msg := by
  intro entries
  induction entries with
  | nil => intro k v hmem _ _; simp at hmem
  | cons hd rest ih =>
    intro k v hmem hk hbad
    obtain ⟨k1, v1⟩ := hd
    rcases List.mem_cons.mp hmem with heq | hmem2
    · injection heq with h1 h2
      subst h1
      subst h2
      rw [encode_dictEntries, if_pos hk]
      rcases hbad with hnostr | ⟨s, rfl, hhex⟩
      · have hu : unwrapStr v = .error "called unwrap on a None value" := by
          cases v with
          | str s => exact absurd rfl (hnostr s)
          | null => rfl
          | bool b => rfl
          | num n => rfl
          | arr l => rfl
          | obj m => rfl
        rw [hu]
        exact ⟨_, rfl⟩
      · have hd : decode_bytes_from_string s = .error "called unwrap on an Err value" := by
          unfold decode_bytes_from_string
          rw [hhex]
        refine ⟨"called unwrap on an Err value", ?_⟩
        simp [unwrapStr, hd]
    · rw [encode_dictEntries]
      obtain ⟨msg, hmsg⟩ := ih k v hmem2 hk hbad
      split
      · exact ⟨_, rfl⟩
      · rw [hmsg]
        exact ⟨msg, rfl⟩

/-! ## Claims -/

/-- C1: the codec does NOT round-trip on every canonical input.  This
theorem evaluates the code at the failing input `i-52e` (a canonical
bencoded integer): decoding yields `-52`, but `encode_json_value` (via
`encode_integer`, whose negative branch pushes the wrapping cast
`i as usize` = `2^64 + i`) re-encodes `-52` as the 23-byte string
`i-18446744073709551564e`, not `i-52e`. -/
theorem c1_roundtrip_breaks_on_negative_integer :
    decode_bencoded_value 100 (strBytes "i-52e") 0 = .ok (.num (-52), 5) ∧
    encode_json_value (.num (-52)) = .ok (strBytes "i-18446744073709551564e") ∧
    strBytes "i-18446744073709551564e" ≠ strBytes "i-52e" :=
  ⟨rfl, rfl, by decide⟩

/-- C2: `encode_integer` does NOT emit the decimal magnitude for negative
integers; it emits `i`, `-`, then the decimal rendering of the value's
two's-complement bit pattern read as unsigned (`i as usize`), then `e`.
At `-52` this produces `i-18446744073709551564e` instead of the
spec-prescribed `i-52e`. -/
theorem c2_encode_integer_negative_wraps :
    encode_integer (-52) = strBytes "i-18446744073709551564e" ∧
    encode_integer (-52) ≠ strBytes "i-52e" :=
  ⟨rfl, by decide⟩

/-- C3 counterexample: contrary to the claim that `decode_bencoded_value`
always returns an error rather than panicking, an unrecognized type byte
(`x`), empty input (length underflow in `ended`), and an integer with no
terminating `e` (`.unwrap()` on the failed `position` search) all panic
(modelled by `DErr.panic`), with no `BtError` or context error returned. -/
theorem c3_counterexample_panics :
    decode_bencoded_value 1 (strBytes "x") 0 = .error (.panic "unsupported format") ∧
    decode_bencoded_value 1 [] 0 = .error (.panic "attempt to subtract with overflow") ∧
    decode_bencoded_value 2 (strBytes "i52") 0 =
      .error (.panic "called unwrap on an Err value") :=
  ⟨rfl, rfl, rfl⟩

theorem findIdx?_eq_none_of_all {l : List Nat} {ch : Nat}
    (h : ∀ x ∈ l, x ≠ ch) : l.findIdx? (· = ch) = none := by
  induction l with
  | nil => simp
  | cons a rest ih =>
    rw [List.findIdx?_cons]
    rw [if_neg (by simpa using h a (by simp))]
    rw [List.findIdx?_succ, ih (fun x hx => h x (by simp [hx]))]
    rfl

/-- C3 (amended): `decode_bencoded_value` with the cursor past the end of
nonempty input returns the truncation context error `reached the end of
data`; but a byte that is not a digit, `i`, `l` or `d` panics with
`unsupported format` instead of returning an invalid-prefix error; empty
input panics via the `usize` underflow in `ended`; and an `i` with no
terminating `e` anywhere after it panics via `unwrap` on the failed
`position` search. -/
theorem c3_amended_errors_and_panics :
    (∀ fuel (data : List Nat) pos, data ≠ [] → data.length ≤ pos →
      decode_bencoded_value (fuel + 1) data pos =
        .error (.msg "reached the end of data")) ∧
    (∀ fuel (data : List Nat) pos, pos < data.length →
      ¬ u8_is_digit (data.getD pos 0) → data.getD pos 0 ≠ 105 →
      data.getD pos 0 ≠ 108 → data.getD pos 0 ≠ 100 →
      decode_bencoded_value (fuel + 1) data pos =
        .error (.panic "unsupported format")) ∧
    (∀ fuel pos, decode_bencoded_value (fuel + 1) [] pos =
      .error (.panic "attempt to subtract with overflow")) ∧
    (∀ fuel (data : List Nat) pos, pos < data.length → data.getD pos 0 = 105 →
      (∀ x ∈ data.drop pos, x ≠ 101) →
      decode_bencoded_value (fuel + 1) data pos =
        .error (.panic "called unwrap on an Err value")) := by
  refine ⟨?_, ?_, ?_, ?_⟩
  · intro fuel data pos hne hge
    rw [decode_bencoded_value.eq_2, ctxPeek_ge hne hge]
  · intro fuel data pos hlt hdig h105 h108 h100
    rw [decode_bencoded_value.eq_2, ctxPeek_lt hlt]
    rw [List.getD_eq_getElem?_getD] at hdig h105 h108 h100
    simp [hdig, h105, h108, h100]
  · intro fuel pos
    rw [decode_bencoded_value.eq_2]
    rfl
  · intro fuel data pos hlt hflag hnoe
    rw [decode_bencoded_value.eq_2, ctxPeek_lt hlt]
    have hint : decode_integer data pos =
        .error (.panic "called unwrap on an Err value") := by
      unfold decode_integer
      rw [ctxPeek_lt hlt]
      have hpos : ctxPosition data pos 101 = .error (.bt (.charNotFound pos 101)) := by
        unfold ctxPosition
        rw [ctxEnded_lt hlt, findIdx?_eq_none_of_all hnoe]
      rw [List.getD_eq_getElem?_getD] at hflag
      simp [hflag, hpos]
    rw [List.getD_eq_getElem?_getD] at hflag
    simp [hflag, hint]
    intro hcontra
    exact absurd hcontra (by decide)

/-- C3 witness: the amended theorem applied at concrete inputs. -/
theorem c3_amended_witness :
    decode_bencoded_value 3 (strBytes "le") 2 = .error (.msg "reached the end of data") ∧
    decode_bencoded_value 3 (strBytes "x") 0 = .error (.panic "unsupported format") ∧
    decode_bencoded_value 3 [] 5 = .error (.panic "attempt to subtract with overflow") ∧
    decode_bencoded_value 3 (strBytes "i52") 0 =
      .error (.panic "called unwrap on an Err value") :=
  ⟨c3_amended_errors_and_panics.1 2 _ 2 (by decide) (by decide),
   c3_amended_errors_and_panics.2.1 2 _ 0 (by decide) (by decide) (by decide)
     (by decide) (by decide),
   c3_amended_errors_and_panics.2.2.1 2 5,
   c3_amended_errors_and_panics.2.2.2 2 _ 0 (by decide) (by decide) (by decide)⟩

/-- C4 counterexample: leading-zero and negative-zero spellings are NOT
rejected: `i052e` decodes to 52 and `i-0e` decodes to 0
(`char_slice_to_isize` performs no leading-zero or minus-zero check). -/
theorem c4_counterexample_leading_zero_accepted :
    decode_integer (strBytes "i052e") 0 = .ok (52, 5) ∧
    decode_integer (strBytes "i-0e") 0 = .ok (0, 4) :=
  ⟨rfl, rfl⟩

/-- C4 (amended): for every integer in the `isize` range, decoding the
canonical spelling `i` ++ decimal(n) ++ `e` with `decode_integer` yields
`n` (consuming the whole input); however other spellings of the same
integer are also accepted: leading-zero forms and `i-0e` decode to the
same value instead of being rejected. -/
theorem c4_decode_integer_amended :
    (∀ n : Int, -(2 ^ 63) ≤ n → n < 2 ^ 63 →
      decode_integer (105 :: intDecimal n ++ [101]) 0 =
        .ok (n, (intDecimal n).length + 2)) ∧
    decode_integer (strBytes "i052e") 0 = .ok (52, 5) ∧
    decode_integer (strBytes "i-0e") 0 = .ok (0, 4) :=
  ⟨fun n _ _ => decode_integer_spec n, rfl, rfl⟩

/-- C4 witness: the amended theorem applied at `n = -52`. -/
theorem c4_witness :
    decode_integer (105 :: intDecimal (-52) ++ [101]) 0 = .ok (-52, 5) := by
  have h := c4_decode_integer_amended.1 (-52) (by decide) (by decide)
  simpa using h

/-- C5 counterexample: for `S = [0xFF]` (not valid UTF-8), decoding
`1:\xFF` succeeds, but the value is a text `String` whose characters are
the Latin-1 widening of the input bytes: its UTF-8 byte content is
`[0xC3, 0xBF]`, not `[0xFF]`, and re-encoding emits `2:\xC3\xBF`.  The
raw octet is re-interpreted as text rather than preserved. -/
theorem c5_counterexample_non_ascii_reinterpreted :
    decode_bencoded_value 100 [49, 58, 255] 0 = .ok (.str [255], 3) ∧
    utf8Encode [255] = [195, 191] ∧
    encode_json_value (.str [255]) = .ok [50, 58, 195, 191] ∧
    utf8Encode [255] ≠ [255] :=
  ⟨rfl, rfl, rfl, by decide⟩

/-- C5 (amended): decoding `decimal(len S) ++ ":" ++ S` with
`decode_string` yields, for nonempty `S`, a string whose character
sequence has one character per byte of `S` with code point equal to that
byte; the string's UTF-8 byte content equals `S` exactly when `S` is pure
ASCII (so non-ASCII octets are re-interpreted as Latin-1 text, not
preserved).  The empty byte string at the very end of the input is the
one shape that fails: the zero-length content read starts at end-of-input
and `advance_many` reports an out-of-range error. -/
theorem c5_decode_string_amended :
    (∀ S : List Nat, S ≠ [] → (∀ b ∈ S, b < 256) →
      decode_string (natDecimal S.length ++ 58 :: S) 0 =
        .ok (S, (natDecimal S.length).length + 1 + S.length)) ∧
    (∀ S : List Nat, utf8Encode S = S ↔ ∀ b ∈ S, b < 128) ∧
    decode_string (strBytes "0:") 0 = .error (.msg "string idx 0 out of range") :=
  ⟨fun S hS _ => decode_string_spec S hS, utf8Encode_eq_self_iff, rfl⟩

/-- C5 witness: the amended theorem applied at `S = "hello"` and at
`S = [0xFF]`. -/
theorem c5_witness :
    decode_string (natDecimal 5 ++ 58 :: strBytes "hello") 0 =
      .ok (strBytes "hello", 7) ∧
    (utf8Encode [255] = [255] ↔ ∀ b ∈ [255], b < 128) := by
  constructor
  · have h := c5_decode_string_amended.1 (strBytes "hello") (by decide) (by decide)
    simpa using h
  · exact c5_decode_string_amended.2.1 [255]

set_option maxRecDepth 1000000 in
/-- C6 witness: `Torrent::try_from` applied to a concrete decoded torrent
value; the stored info hash is the hex SHA-1 of the re-encoded `info`
dictionary `d6:lengthi1e4:name1:n12:piece lengthi1e6:pieces0:e`. -/
theorem c6_witness :
    Torrent.tryFrom (JSValue.obj
        [(strBytes "announce", .str (strBytes "u")),
         (strBytes "info", .obj
           [(strBytes "length", .num 1),
            (strBytes "name", .str (strBytes "n")),
            (strBytes "piece length", .num 1),
            (strBytes "pieces", .str [])])]) =
      .ok ⟨strBytes "u", ⟨1, strBytes "n", 1, [], []⟩,
        strBytes "29b2c99f977a7b89bf00f90867a514fe671ffb55"⟩ ∧
    (∃ m bs,
      (jsGet (JSValue.obj
        [(strBytes "announce", .str (strBytes "u")),
         (strBytes "info", .obj
           [(strBytes "length", .num 1),
            (strBytes "name", .str (strBytes "n")),
            (strBytes "piece length", .num 1),
            (strBytes "pieces", .str [])])]) (strBytes "info")).bind asObject = some m ∧
      encode_dictionary m = .ok bs ∧
      (strBytes "29b2c99f977a7b89bf00f90867a514fe671ffb55" : List Nat) =
        hexEncode (sha1 bs)) := by
  have h : Torrent.tryFrom (JSValue.obj
      [(strBytes "announce", .str (strBytes "u")),
       (strBytes "info", .obj
         [(strBytes "length", .num 1),
          (strBytes "name", .str (strBytes "n")),
          (strBytes "piece length", .num 1),
          (strBytes "pieces", .str [])])]) =
      .ok ⟨strBytes "u", ⟨1, strBytes "n", 1, [], []⟩,
        strBytes "29b2c99f977a7b89bf00f90867a514fe671ffb55"⟩ := by rfl
  exact ⟨h, torrent_try_from_info_hash _ _ h⟩

/-- C7 counterexample: in the tracker announce query built by the magnet
`handshake`, `left` is the literal string `1` for every magnet — it is
not the total content length (for instance, content of total length 2
would require `left` = `2`). -/
theorem c7_counterexample_left_not_length :
    (magnetTrackerQueryPairs
        ⟨List.replicate 20 0, none, some (strBytes "http://t")⟩).lookup
      (strBytes "left") = some (strBytes "1") ∧
    (strBytes "1" : List Nat) ≠ natDecimal 2 :=
  ⟨rfl, by decide⟩

/-- C7 (amended): every tracker announce query built by the magnet
`handshake` carries `uploaded=0`, `downloaded=0` and `compact=1`, and its
`left` parameter is always the constant string `1` (the content length is
unknown before the metadata exchange), not the total content length. -/
theorem c7_magnet_tracker_query_amended (m : Magnet) :
    (strBytes "uploaded", strBytes "0") ∈ magnetTrackerQueryPairs m ∧
    (strBytes "downloaded", strBytes "0") ∈ magnetTrackerQueryPairs m ∧
    (strBytes "compact", strBytes "1") ∈ magnetTrackerQueryPairs m ∧
    (magnetTrackerQueryPairs m).lookup (strBytes "left") =
      some (strBytes "1") := by
  refine ⟨?_, ?_, ?_, rfl⟩ <;> simp [magnetTrackerQueryPairs]

/-- C8 witness: `Magnet::new` applied to a concrete magnet URI with
mixed-case hex, a `dn`, a `tr` and an ignored key `x`. -/
theorem c8_witness :
    ∃ m, Magnet.new (strBytes "magnet:?xt=urn:btih:" ++
        strBytes "D69F91E6B2AE4c542468d1073a71d4ea13879a7f" ++
        strBytes "&dn=sample.txt&x=1&tr=http://tracker.example/announce") = .ok m ∧
      hexEncode m.info_hash =
        (strBytes "D69F91E6B2AE4c542468d1073a71d4ea13879a7f").map hexToLower ∧
      m.download_name = lastParamOr (strBytes "dn")
        (urlencodedParse
          (strBytes "&dn=sample.txt&x=1&tr=http://tracker.example/announce")) none ∧
      m.tracker_url = lastParamOr (strBytes "tr")
        (urlencodedParse
          (strBytes "&dn=sample.txt&x=1&tr=http://tracker.example/announce")) none :=
  magnet_new_spec _ _ (by decide) (by decide)

/-- C9 counterexample: it is NOT the case that every `l`/`d` opener
followed by well-formed elements and end-of-input decodes successfully:
`l0:` (a list opener followed by the well-formed empty byte string, with
end-of-input in place of the closing `e`) fails with an out-of-range
error, while `l0:e` decodes to `[""]` — the zero-length content read at
end-of-input trips `advance_many`. -/
theorem c9_counterexample_empty_string_at_eof :
    decode_list 100 (strBytes "l0:e") 0 = .ok (.arr [.str []], 4) ∧
    decode_list 100 (strBytes "l0:") 0 =
      .error (.msg "string idx 0 out of range") :=
  ⟨rfl, rfl⟩

/-- C9 (amended): the list and dictionary loops treat end-of-input
exactly like a closing `e`: appending the closing `e` never changes a
successful parse (so every EOF-terminated parse that succeeds returns
exactly what the properly closed input would), and a loop whose cursor
reaches end-of-input returns the elements (or pairs) accumulated so far
rather than a truncation error.  (Decoding does not succeed for every
well-formed-elements prefix, as the `l0:` counterexample shows.) -/
theorem c9_eof_terminator_amended :
    (∀ fuel (B : List Nat) r, decode_list fuel B 0 = .ok r →
      decode_list fuel (B ++ [101]) 0 = .ok r) ∧
    (∀ fuel (B : List Nat) r, decode_dictionary fuel B 0 = .ok r →
      decode_dictionary fuel (B ++ [101]) 0 = .ok r) ∧
    (∀ fuel (data : List Nat) pos acc, data ≠ [] → data.length ≤ pos →
      decode_listLoop (fuel + 1) data pos acc = .ok (acc, pos + 1)) ∧
    (∀ fuel (data : List Nat) pos st vals, data ≠ [] → data.length ≤ pos →
      decode_dictLoop (fuel + 1) data pos st vals = .ok (vals, pos)) :=
  ⟨fun fuel B r h => (decode_ext_all fuel).2.1 B 0 r h,
   fun fuel B r h => (decode_ext_all fuel).2.2.2.1 B 0 r h,
   fun _ _ _ _ h1 h2 => decode_listLoop_at_end h1 h2,
   fun _ _ _ _ _ h1 h2 => decode_dictLoop_at_end h1 h2⟩

/-- C9 witness: the amended theorem applied to a concrete list and
dictionary whose EOF-terminated parses succeed, and to loops whose cursor
is at end-of-input. -/
theorem c9_witness :
    decode_list 100 (strBytes "l5:helloi52e" ++ [101]) 0 =
      .ok (.arr [.str (strBytes "hello"), .num 52], 13) ∧
    decode_dictionary 100 (strBytes "d3:foo3:bar" ++ [101]) 0 =
      .ok (.obj [(strBytes "foo", .str (strBytes "bar"))], 11) ∧
    decode_listLoop 3 (strBytes "le") 5 [] = .ok ([], 6) ∧
    decode_dictLoop 3 (strBytes "de") 7 none [] = .ok ([], 7) :=
  ⟨c9_eof_terminator_amended.1 100 _ _ (by rfl),
   c9_eof_terminator_amended.2.1 100 _ _ (by rfl),
   c9_eof_terminator_amended.2.2.1 2 _ 5 [] (by decide) (by decide),
   c9_eof_terminator_amended.2.2.2 2 _ 7 none [] (by decide) (by decide)⟩

/-- C10: `encode_dictionary` cannot succeed — the `unwrap` panics,
modelled as `.error` — whenever some entry under the key `pieces` or
`peers` is not a string or is a string that is not valid hexadecimal;
encoding only totally succeeds when those entries hold valid hex-string
renderings of the underlying bytes. -/
theorem c10_encode_dictionary_binary_keys_panic
    (entries : List (List Nat × JSValue)) (k : List Nat) (v : JSValue)
    (hmem : (k, v) ∈ entries)
    (hk : k = strBytes "pieces" ∨ k = strBytes "peers")
    (hbad : (∀ s, v ≠ JSValue.str s) ∨ ∃ s, v = JSValue.str s ∧ hexDecode s = none) :
    ∃ msg, encode_dictionary entries = .error msg := by
  obtain ⟨msg, hmsg⟩ := encode_dictEntries_bad entries k v hmem hk hbad
  refine ⟨msg, ?_⟩
  unfold encode_dictionary
  rw [hmsg]

/-- C10 witness: a dictionary whose `pieces` entry is a number (the
`as_str().unwrap()` panic) and one whose `peers` entry is not valid hex
(the `hex::decode(..).unwrap()` panic). -/
theorem c10_witness :
    (∃ msg, encode_dictionary [(strBytes "pieces", JSValue.num 5)] = .error msg) ∧
    (∃ msg, encode_dictionary
      [(strBytes "peers", JSValue.str (strBytes "zz"))] = .error msg) :=
  ⟨c10_encode_dictionary_binary_keys_panic _ (strBytes "pieces") (.num 5)
      (by simp) (Or.inl rfl) (Or.inl fun s h => JSValue.noConfusion h),
   c10_encode_dictionary_binary_keys_panic _ (strBytes "peers")
      (.str (strBytes "zz"))
      (by simp) (Or.inr rfl) (Or.inr ⟨strBytes "zz", rfl, by decide⟩)⟩
